import Mathlib

/-!
# Verification of the Rewrap paragraph-reflow algorithm

Shallow embedding of the core text algorithm of `rewrap.py`
(`RewrapWindowHelper._rewrap_selection` and its inner closure
`format_paragraph`).  Text is modelled as `List Char`.  The model assumes
the input uses `'\n'` as its only line terminator and contains none of the
exotic break characters (`'\r'`, `'\x0b'`, `'\x0c'`) that Python's
`str.splitlines` would additionally split on; within a line the whitespace
characters are `' '` and `'\t'`, matching Python's `\S` on such texts.

Correspondence to the source:
* `INDENT_CHARS`, `isIndentChar`  — the module constant `INDENT_CHARS`.
* `splitOnNL`                     — `str.split('\n')` semantics.
* `splitlines`                    — `str.splitlines()` (drops the segment
                                    after a terminating newline).
* `stripStep`                     — `'\n'.join(line.lstrip(INDENT_CHARS)
                                    for line in text.splitlines())`.
* `tokensOf`                      — `re.findall('\S+', s)`.
* `matchesLine`                   — a complete line matching the pattern
                                    `^(?:[ \t]*\S+)+\n` of `line_re`:
                                    the line is nonempty, has no newline,
                                    and ends in a non-whitespace character
                                    (every other character of a line is
                                    space, tab or non-whitespace).
* `paragraphsOf`                  — `re.findall(paragraph_re, text, re.M)`:
                                    the maximal runs of consecutive
                                    newline-terminated matching lines.
* `sepFor`, `fpStep`,
  `format_paragraph`              — the body of `format_paragraph`.
* `reflow`                        — `_rewrap_selection` from `text += '\n'`
                                    up to the computed `output` string.
-/

namespace Rewrap

/-- The characters treated as indentation, `INDENT_CHARS = ' \t#/;*!-'`. -/
def INDENT_CHARS : List Char := [' ', '\t', '#', '/', ';', '*', '!', '-']

/-- Membership test in `INDENT_CHARS`. -/
def isIndentChar (c : Char) : Bool := INDENT_CHARS.contains c

/-- Whitespace characters of the model (Python `\s` restricted to the
texts in scope: space, tab, newline). -/
def isWSChar (c : Char) : Bool := c == ' ' || c == '\t' || c == '\n'

/-- The last character of a string, Python's `s[-1]` (as an `Option`). -/
def lastChar : List Char → Option Char
  | [] => none
  | [c] => some c
  | _ :: c :: cs => lastChar (c :: cs)

/-! ## Maximal runs

`runsBy p xs` is the list of maximal runs of consecutive elements of `xs`
satisfying `p`, in order, with the separating elements discarded.  It is
used both for `re.findall('\S+', s)` (runs of non-whitespace characters)
and for `re.findall(paragraph_re, text)` (runs of matching lines). -/

/-- Close the run currently being built (if nonempty) onto the result. -/
def flushRun {α : Type} (st : List α × List (List α)) : List (List α) :=
  if st.1.isEmpty then st.2 else st.1 :: st.2

/-- One step (from the right) of the maximal-run grouping. -/
def runStep {α : Type} (p : α → Bool) (x : α) (st : List α × List (List α)) :
    List α × List (List α) :=
  if p x then (x :: st.1, st.2) else ([], flushRun st)

/-- Maximal runs of elements satisfying `p`. -/
def runsBy {α : Type} (p : α → Bool) (xs : List α) : List (List α) :=
  flushRun (xs.foldr (runStep p) ([], []))

/-- `re.findall('\S+', s)`: the maximal runs of non-whitespace characters. -/
def tokensOf (s : List Char) : List (List Char) :=
  runsBy (fun c => !isWSChar c) s

/-! ## Splitting into lines -/

/-- One step (from the right) of splitting on `'\n'`. -/
def splitStep (c : Char) (acc : List (List Char)) : List (List Char) :=
  if c == '\n' then [] :: acc else (c :: acc.headD []) :: acc.tail

/-- `s.split('\n')`: the segments of `s` between newlines (one more
segment than there are newlines). -/
def splitOnNL (s : List Char) : List (List Char) := s.foldr splitStep [[]]

/-- `s.splitlines()`: like `splitOnNL`, except that the final segment is
dropped when it is empty (i.e. when `s` ends in a newline or is empty). -/
def splitlines (s : List Char) : List (List Char) :=
  let segs := splitOnNL s
  if segs.getLast? = some [] then segs.dropLast else segs

/-- `sep.join(xs)` (stated generically; it is also reused at the level of
line lists to describe the output's line structure). -/
def joinSep {α : Type} (sep : List α) : List (List α) → List α
  | [] => []
  | [x] => x
  | x :: y :: t => x ++ sep ++ joinSep sep (y :: t)

/-- Concatenation of a list of lists. -/
def catLists {α : Type} : List (List α) → List α
  | [] => []
  | x :: t => x ++ catLists t

/-- `line.lstrip(INDENT_CHARS)`. -/
def stripLine (l : List Char) : List Char := l.dropWhile isIndentChar

/-- The indent-removal stage:
`'\n'.join(line.lstrip(INDENT_CHARS) for line in text.splitlines())`. -/
def stripStep (s : List Char) : List Char :=
  joinSep ['\n'] ((splitlines s).map stripLine)

/-- A (newline-free) line matches `(?:[ \t]*\S+)+` exactly when it is
nonempty and its last character is not whitespace; the conjunct that no
character is a newline records the line boundary of the regex. -/
def matchesLine (l : List Char) : Bool :=
  (match lastChar l with
   | some c => !isWSChar c
   | none => false) && l.all (fun c => !(c == '\n'))

/-- The complete (newline-terminated) lines of a text: all split segments
except the final one, which is the unterminated remainder. -/
def completeLines (s : List Char) : List (List Char) :=
  (splitOnNL s).dropLast

/-- `re.findall(paragraph_re, text, re.MULTILINE)` as line groups: the
maximal runs of consecutive complete lines matching `line_re`. -/
def paragraphsOf (ls : List (List Char)) : List (List (List Char)) :=
  runsBy matchesLine ls

/-- Reassemble a group of lines, each terminated by a newline; applied to
a paragraph group this is the exact substring matched by `paragraph_re`. -/
def renderLines : List (List Char) → List Char
  | [] => []
  | l :: ls => l ++ '\n' :: renderLines ls

/-- The paragraph string of a group of lines. -/
def paraText (g : List (List Char)) : List Char := renderLines g

/-! ## `format_paragraph` -/

/-- `'ABCDEFGHIJKLMNOPQRSTUVWXYZ'`. -/
def UPPER_CHARS : List Char := "ABCDEFGHIJKLMNOPQRSTUVWXYZ".toList

/-- `word[0] in 'ABCDEFGHIJKLMNOPQRSTUVWXYZ'`. -/
def upperFirst (w : List Char) : Bool :=
  match w.head? with
  | some c => UPPER_CHARS.contains c
  | none => false

/-- The inter-word spacing: two spaces iff the accumulated text ends in a
period and the candidate word starts with an uppercase ASCII letter
(`is_between_sentences` in the source), else one space. -/
def sepFor (s w : List Char) : List Char :=
  if lastChar s = some '.' ∧ upperFirst w = true then [' ', ' '] else [' ']

/-- The body of the `for word in words` loop of `format_paragraph`.  The
state is `(new_paragraph, offset)`. -/
def fpStep (indent : List Char) (indent_width max_line_length : Nat)
    (st : List Char × Nat) (word : List Char) : List Char × Nat :=
  let st1 :=
    if st.2 ≠ 0 then
      let space := sepFor st.1 word
      let potential_offset := st.2 + space.length + word.length
      if potential_offset ≤ max_line_length then
        (st.1 ++ space ++ word, potential_offset)
      else
        (st.1 ++ ['\n'], 0)
    else st
  if st1.2 = 0 then (st1.1 ++ indent ++ word, indent_width + word.length)
  else st1

/-- `format_paragraph(paragraph)`: fold the loop body over the words and
append the final newline. -/
def format_paragraph (indent : List Char) (indent_width max_line_length : Nat)
    (paragraph : List Char) : List Char :=
  ((tokensOf paragraph).foldl (fpStep indent indent_width max_line_length)
    ([], 0)).1 ++ ['\n']

/-! ## The full pipeline -/

/-- The core of `_rewrap_selection`: from the selected text (returning
early on an empty selection) to the `output` string. -/
def reflow (text : List Char) (max_line_length tab_width : Nat) : List Char :=
  if text.isEmpty then []
  else
    let text1 := text ++ ['\n']
    let indent := text1.takeWhile isIndentChar
    let indent_width := indent.length + indent.count '\t' * (tab_width - 1)
    let text2 := stripStep text1
    let paras := (paragraphsOf (completeLines text2)).map paraText
    joinSep (indent ++ ['\n'])
      (paras.map (format_paragraph indent indent_width max_line_length))

/-! ## Derived views used by the statements -/

/-- The extracted indent, `re.match('[ \t#/;*!-]*', text).group(0)`
applied after `text += '\n'`. -/
def indentOf (text : List Char) : List Char :=
  (text ++ ['\n']).takeWhile isIndentChar

/-- `indent_width = len(indent) + indent.count('\t') * (tab_width - 1)`. -/
def indentWidthOf (text : List Char) (tab_width : Nat) : Nat :=
  (indentOf text).length + (indentOf text).count '\t' * (tab_width - 1)

/-- The stripped complete lines actually fed to paragraph segmentation:
every newline-terminated line of the input, with leading indent-set
characters removed (the final unterminated segment is dropped). -/
def procLines (text : List Char) : List (List Char) :=
  ((splitOnNL text).dropLast).map stripLine

/-- The lines of an output string (Python `splitlines` view). -/
def linesOf (s : List Char) : List (List Char) := splitlines s

/-- Column width of a line: tabs count `tab_width` columns, every other
character one column. -/
def colWidth (tab_width : Nat) (l : List Char) : Nat :=
  l.length + l.count '\t' * (tab_width - 1)

/-- A whitespace-free nonempty string (what `re.findall('\S+', ·)`
produces). -/
def tokenLike (w : List Char) : Prop :=
  w ≠ [] ∧ ∀ c ∈ w, isWSChar c = false

/-- Greedy line filling at the level of line bodies (lines without their
indent): `cur` is the body of the line being filled, `off` the current
`offset`.  Mirrors the word loop of `format_paragraph`. -/
def bodyWrap (iw ml : Nat) : List Char → Nat → List (List Char) → List (List Char)
  | cur, _, [] => [cur]
  | cur, off, w :: ws =>
      let space := sepFor cur w
      let pot := off + space.length + w.length
      if pot ≤ ml then bodyWrap iw ml (cur ++ space ++ w) pot ws
      else cur :: bodyWrap iw ml w (iw + w.length) ws

/-- The full lines produced for one paragraph from its word list. -/
def wrapTokens (ind : List Char) (iw ml : Nat) :
    List (List Char) → List (List Char)
  | [] => [[]]
  | w :: ws => (bodyWrap iw ml w (iw + w.length) ws).map (fun b => ind ++ b)

/-- The tokens of a paragraph group (the `words` list of
`format_paragraph`). -/
def groupTokens (g : List (List Char)) : List (List Char) :=
  tokensOf (paraText g)

/-- Structured form of the whole pipeline output. -/
def assembleLines (ind : List Char) (iw ml : Nat)
    (pls : List (List Char)) : List Char :=
  joinSep (ind ++ ['\n'])
    ((paragraphsOf pls).map
      (fun g => renderLines (wrapTokens ind iw ml (groupTokens g))))

/-- Everything in a text up to and including its last newline (empty when
there is none). -/
def truncAtLastNL (s : List Char) : List Char :=
  (s.reverse.dropWhile (fun c => !(c == '\n'))).reverse

/-- The first line of a text (up to the first newline). -/
def firstLineOf (text : List Char) : List Char :=
  text.takeWhile (fun c => !(c == '\n'))

/-- The tokens of an output, as read by the word-preservation property:
each output line is taken without its leading `indent` prefix and split
into whitespace-delimited tokens. -/
def outTokens (ind : List Char) (out : List Char) : List (List Char) :=
  catLists ((linesOf out).map (fun l => tokensOf (l.drop ind.length)))

/-! ## Generic list helpers -/

theorem length_dropWhile_le' {α : Type} (p : α → Bool) (l : List α) :
    (l.dropWhile p).length ≤ l.length := by
  induction l with
  | nil => simp
  | cons x xs ih =>
    rw [List.dropWhile_cons]
    split
    · exact Nat.le_trans ih (Nat.le_succ _)
    · exact Nat.le_refl _

theorem takeWhile_of_all {α : Type} {p : α → Bool} {l : List α}
    (h : ∀ x ∈ l, p x = true) : l.takeWhile p = l := by
  induction l with
  | nil => simp
  | cons x xs ih =>
    rw [List.takeWhile_cons, h x (by simp)]
    simp only [if_true]
    rw [ih (fun y hy => h y (by simp [hy]))]

theorem dropWhile_of_all {α : Type} {p : α → Bool} {l : List α}
    (h : ∀ x ∈ l, p x = true) : l.dropWhile p = [] := by
  induction l with
  | nil => simp
  | cons x xs ih =>
    rw [List.dropWhile_cons, h x (by simp)]
    simp only [if_true]
    exact ih (fun y hy => h y (by simp [hy]))

theorem takeWhile_append_all {α : Type} {p : α → Bool} {a : List α}
    (b : List α) (h : ∀ x ∈ a, p x = true) :
    (a ++ b).takeWhile p = a ++ b.takeWhile p := by
  induction a with
  | nil => simp
  | cons x xs ih =>
    rw [List.cons_append, List.takeWhile_cons, h x (by simp)]
    simp only [if_true]
    rw [ih (fun y hy => h y (by simp [hy])), List.cons_append]

theorem dropWhile_append_all {α : Type} {p : α → Bool} {a : List α}
    (b : List α) (h : ∀ x ∈ a, p x = true) :
    (a ++ b).dropWhile p = b.dropWhile p := by
  induction a with
  | nil => simp
  | cons x xs ih =>
    rw [List.cons_append, List.dropWhile_cons, h x (by simp)]
    simp only [if_true]
    exact ih (fun y hy => h y (by simp [hy]))

theorem takeWhile_append_neg {α : Type} {p : α → Bool} {x : α}
    (a b : List α) (h : p x = false) :
    (a ++ x :: b).takeWhile p = a.takeWhile p := by
  induction a with
  | nil => simp [List.takeWhile_cons, h]
  | cons y ys ih =>
    rw [List.cons_append, List.takeWhile_cons, List.takeWhile_cons]
    split <;> simp [ih]

theorem dropWhile_append_neg {α : Type} {p : α → Bool} {x : α}
    (a b : List α) (h : p x = false) :
    (a ++ x :: b).dropWhile p = a.dropWhile p ++ x :: b := by
  induction a with
  | nil => simp [List.dropWhile_cons, h]
  | cons y ys ih =>
    rw [List.cons_append, List.dropWhile_cons, List.dropWhile_cons]
    split <;> simp [ih]

theorem dropWhile_dropWhile {α : Type} (p : α → Bool) (l : List α) :
    (l.dropWhile p).dropWhile p = l.dropWhile p := by
  induction l with
  | nil => simp
  | cons x xs ih =>
    rw [List.dropWhile_cons]
    split
    · exact ih
    · rw [List.dropWhile_cons]
      split <;> simp_all

theorem map_dropLast' {α β : Type} (f : α → β) :
    ∀ l : List α, (l.map f).dropLast = l.dropLast.map f
  | [] => rfl
  | [_] => rfl
  | x :: y :: t => by
    rw [List.map_cons, List.map_cons, List.dropLast_cons₂, List.dropLast_cons₂,
      List.map_cons]
    have := map_dropLast' f (y :: t)
    rw [List.map_cons] at this
    rw [this]

/-! ## `lastChar` -/

theorem lastChar_cons_ne {x : Char} {l : List Char} (h : l ≠ []) :
    lastChar (x :: l) = lastChar l := by
  cases l with
  | nil => exact absurd rfl h
  | cons c cs => rfl

theorem lastChar_append {a b : List Char} (h : b ≠ []) :
    lastChar (a ++ b) = lastChar b := by
  induction a with
  | nil => rfl
  | cons x xs ih =>
    rw [List.cons_append, lastChar_cons_ne (by simp [h]), ih]

theorem lastChar_isSome {l : List Char} (h : l ≠ []) :
    ∃ c, lastChar l = some c := by
  induction l with
  | nil => exact absurd rfl h
  | cons x xs ih =>
    cases xs with
    | nil => exact ⟨x, rfl⟩
    | cons y ys =>
      obtain ⟨c, hc⟩ := ih (by simp)
      exact ⟨c, by rw [lastChar_cons_ne (by simp), hc]⟩

theorem lastChar_mem : ∀ {l : List Char} {c : Char}, lastChar l = some c → c ∈ l
  | [], _, h => by simp [lastChar] at h
  | [x], c, h => by
    simp only [lastChar] at h
    simp [Option.some_inj.mp h]
  | x :: y :: t, c, h => by
    rw [lastChar_cons_ne (by simp)] at h
    exact List.mem_cons_of_mem _ (lastChar_mem h)

theorem lastChar_concat (a : List Char) (c : Char) :
    lastChar (a ++ [c]) = some c := by
  rw [lastChar_append (by simp : ([c] : List Char) ≠ [])]
  rfl

/-! ## `joinSep` -/

theorem joinSep_nil {α : Type} (sep : List α) : joinSep sep [] = [] := rfl

theorem joinSep_single {α : Type} (sep x : List α) : joinSep sep [x] = x := rfl

theorem joinSep_cons₂ {α : Type} (sep x y : List α) (t : List (List α)) :
    joinSep sep (x :: y :: t) = x ++ sep ++ joinSep sep (y :: t) := rfl

theorem joinSep_cons_ne {α : Type} (sep x : List α) {t : List (List α)}
    (h : t ≠ []) : joinSep sep (x :: t) = x ++ sep ++ joinSep sep t := by
  cases t with
  | nil => exact absurd rfl h
  | cons y u => rfl

theorem joinSep_concat {α : Type} (sep y : List α) (M : List (List α))
    (h : M ≠ []) : joinSep sep (M ++ [y]) = joinSep sep M ++ sep ++ y := by
  induction M with
  | nil => exact absurd rfl h
  | cons z t ih =>
    cases t with
    | nil => simp [joinSep_cons₂, joinSep_single]
    | cons w u =>
      rw [List.cons_append, joinSep_cons_ne sep z (by simp),
        joinSep_cons_ne sep z (by simp : (w :: u) ≠ []), ih (by simp)]
      simp [List.append_assoc]

theorem joinSep_snoc_append {α : Type} (sep x y : List α)
    (L : List (List α)) :
    joinSep sep (L ++ [x]) ++ y = joinSep sep (L ++ [x ++ y]) := by
  induction L with
  | nil => simp [joinSep_single]
  | cons z t ih =>
    rw [List.cons_append, List.cons_append,
      joinSep_cons_ne sep z (by simp), joinSep_cons_ne sep z (by simp),
      List.append_assoc, List.append_assoc, ih, List.append_assoc]

theorem joinSep_snoc_decomp {α : Type} (sep x : List α) (L : List (List α)) :
    ∃ pre, joinSep sep (L ++ [x]) = pre ++ x := by
  induction L with
  | nil => exact ⟨[], by simp [joinSep_single]⟩
  | cons z t ih =>
    obtain ⟨pre, hpre⟩ := ih
    refine ⟨z ++ sep ++ pre, ?_⟩
    rw [List.cons_append, joinSep_cons_ne sep z (by simp), hpre]
    simp [List.append_assoc]

/-! ## `renderLines` -/

theorem renderLines_append (A B : List (List Char)) :
    renderLines (A ++ B) = renderLines A ++ renderLines B := by
  induction A with
  | nil => rfl
  | cons l ls ih => simp [renderLines, ih]

theorem renderLines_eq_joinSep :
    ∀ (L : List (List Char)), L ≠ [] →
      renderLines L = joinSep ['\n'] L ++ ['\n']
  | [], h => absurd rfl h
  | [x], _ => by simp [renderLines, joinSep_single]
  | x :: y :: t, _ => by
    rw [renderLines, joinSep_cons₂, renderLines_eq_joinSep (y :: t) (by simp)]
    simp

theorem renderLines_joinSep (ind : List Char) :
    ∀ (Ls : List (List (List Char))),
      renderLines (joinSep [ind] Ls)
        = joinSep (ind ++ ['\n']) (Ls.map renderLines)
  | [] => rfl
  | [X] => by simp [joinSep_single]
  | X :: Y :: t => by
    rw [joinSep_cons₂, List.map_cons, List.map_cons, joinSep_cons₂,
      renderLines_append, renderLines_append]
    have : renderLines [ind] = ind ++ ['\n'] := by simp [renderLines]
    rw [this, ← List.map_cons, renderLines_joinSep ind (Y :: t)]

/-! ## `runsBy` -/

theorem mem_takeWhile_p {α : Type} {p : α → Bool} :
    ∀ {l : List α} {x : α}, x ∈ l.takeWhile p → p x = true
  | [], _, h => by simp at h
  | y :: t, x, h => by
    rw [List.takeWhile_cons] at h
    by_cases hy : p y = true
    · rw [hy] at h
      simp only [if_true] at h
      rcases List.mem_cons.mp h with rfl | h
      · exact hy
      · exact mem_takeWhile_p h
    · simp only [Bool.not_eq_true] at hy
      rw [hy] at h
      simp at h

theorem flushRun_nil_fst {α : Type} (Y : List (List α)) :
    flushRun (([] : List α), Y) = Y := rfl

theorem runsBy_nil {α : Type} (p : α → Bool) : runsBy p [] = [] := rfl

theorem runsBy_cons_neg {α : Type} (p : α → Bool) {x : α} (xs : List α)
    (h : p x = false) : runsBy p (x :: xs) = runsBy p xs := by
  rw [runsBy, List.foldr_cons, runStep, h]
  simp only [Bool.false_eq_true, if_false]
  rw [flushRun_nil_fst]
  rfl

theorem runs_foldr_eq {α : Type} (p : α → Bool) (xs : List α) :
    xs.foldr (runStep p) ([], [])
      = (xs.takeWhile p, runsBy p (xs.dropWhile p)) := by
  induction xs with
  | nil => rfl
  | cons x xs ih =>
    rw [List.foldr_cons, ih, List.takeWhile_cons, List.dropWhile_cons]
    by_cases hx : p x = true
    · rw [runStep, hx]
      simp
    · simp only [Bool.not_eq_true] at hx
      rw [runStep, hx]
      simp only [Bool.false_eq_true, if_false]
      rw [runsBy_cons_neg p xs hx]
      have h2 : runsBy p xs
          = flushRun (xs.takeWhile p, runsBy p (xs.dropWhile p)) := by
        conv_lhs => rw [runsBy, ih]
      rw [h2]

theorem runsBy_cons_pos {α : Type} (p : α → Bool) {x : α} (xs : List α)
    (h : p x = true) :
    runsBy p (x :: xs)
      = (x :: xs.takeWhile p) :: runsBy p (xs.dropWhile p) := by
  rw [runsBy, List.foldr_cons, runs_foldr_eq, runStep, h]
  simp only [if_true]
  rfl

theorem runs_break {α : Type} (p : α → Bool) {x : α} (hx : p x = false)
    (b : List α) :
    ∀ (a : List α), runsBy p (a ++ x :: b) = runsBy p a ++ runsBy p b
  | [] => by
    rw [List.nil_append, runsBy_nil, List.nil_append, runsBy_cons_neg p b hx]
  | y :: a' => by
    by_cases hy : p y = true
    · rw [List.cons_append, runsBy_cons_pos p _ hy, runsBy_cons_pos p _ hy,
        takeWhile_append_neg a' b hx, dropWhile_append_neg a' b hx,
        runs_break p hx b (a'.dropWhile p), List.cons_append]
    · simp only [Bool.not_eq_true] at hy
      rw [List.cons_append, runsBy_cons_neg p _ hy, runsBy_cons_neg p _ hy,
        runs_break p hx b a']
termination_by a => a.length
decreasing_by
  all_goals
    simp only [List.length_cons]
    first
      | exact Nat.lt_succ_of_le (length_dropWhile_le' _ _)
      | exact Nat.lt_succ_of_le (Nat.le_refl _)

theorem runs_all {α : Type} (p : α → Bool) {xs : List α}
    (h : ∀ x ∈ xs, p x = true) (hne : xs ≠ []) : runsBy p xs = [xs] := by
  cases xs with
  | nil => exact absurd rfl hne
  | cons y t =>
    rw [runsBy_cons_pos p t (h y (by simp)),
      takeWhile_of_all (fun z hz => h z (by simp [hz])),
      dropWhile_of_all (fun z hz => h z (by simp [hz])), runsBy_nil]

theorem runs_mem {α : Type} (p : α → Bool) :
    ∀ (xs : List α) {g : List α}, g ∈ runsBy p xs →
      g ≠ [] ∧ ∀ x ∈ g, p x = true
  | [], g, h => by simp [runsBy_nil] at h
  | y :: t, g, h => by
    by_cases hy : p y = true
    · rw [runsBy_cons_pos p t hy] at h
      rcases List.mem_cons.mp h with rfl | h
      · refine ⟨by simp, ?_⟩
        intro x hx
        rcases List.mem_cons.mp hx with rfl | hx
        · exact hy
        · exact mem_takeWhile_p hx
      · exact runs_mem p (t.dropWhile p) h
    · simp only [Bool.not_eq_true] at hy
      rw [runsBy_cons_neg p t hy] at h
      exact runs_mem p t h
termination_by xs => xs.length
decreasing_by
  all_goals
    simp only [List.length_cons]
    first
      | exact Nat.lt_succ_of_le (length_dropWhile_le' _ _)
      | exact Nat.lt_succ_of_le (Nat.le_refl _)

theorem filter_take_drop {α : Type} (p : α → Bool) (l : List α) :
    l.filter p = l.takeWhile p ++ (l.dropWhile p).filter p := by
  induction l with
  | nil => rfl
  | cons x t ih =>
    rw [List.filter_cons, List.takeWhile_cons, List.dropWhile_cons]
    by_cases hx : p x = true
    · rw [hx]
      simp only [if_true]
      rw [ih, List.cons_append]
    · simp only [Bool.not_eq_true] at hx
      rw [hx]
      simp only [Bool.false_eq_true, if_false]
      rw [List.filter_cons, hx]
      simp

theorem runs_flat {α : Type} (p : α → Bool) :
    ∀ (xs : List α), catLists (runsBy p xs) = xs.filter p
  | [] => rfl
  | y :: t => by
    by_cases hy : p y = true
    · rw [runsBy_cons_pos p t hy, List.filter_cons, hy]
      simp only [if_true]
      rw [catLists, runs_flat p (t.dropWhile p), List.cons_append,
        ← filter_take_drop]
    · simp only [Bool.not_eq_true] at hy
      rw [runsBy_cons_neg p t hy, List.filter_cons, hy, runs_flat p t]
      simp
termination_by xs => xs.length
decreasing_by
  all_goals
    simp only [List.length_cons]
    first
      | exact Nat.lt_succ_of_le (length_dropWhile_le' _ _)
      | exact Nat.lt_succ_of_le (Nat.le_refl _)

/-! ## `splitOnNL` and `splitlines` -/

theorem splitOnNL_nil : splitOnNL [] = [[]] := rfl

theorem splitOnNL_cons (c : Char) (s : List Char) :
    splitOnNL (c :: s) = splitStep c (splitOnNL s) := rfl

theorem splitOnNL_ne_nil (s : List Char) : splitOnNL s ≠ [] := by
  induction s with
  | nil => simp [splitOnNL_nil]
  | cons c t ih =>
    rw [splitOnNL_cons, splitStep]
    split <;> simp

theorem splitOnNL_cons_nl (s : List Char) :
    splitOnNL ('\n' :: s) = [] :: splitOnNL s := by
  rw [splitOnNL_cons, splitStep]
  simp

theorem splitOnNL_cons_ne {c : Char} (s : List Char) (h : (c == '\n') = false) :
    splitOnNL (c :: s)
      = (c :: (splitOnNL s).headD []) :: (splitOnNL s).tail := by
  rw [splitOnNL_cons, splitStep, h]
  simp

theorem splitOnNL_noNL {s : List Char} :
    ∀ l ∈ splitOnNL s, '\n' ∉ l := by
  induction s with
  | nil =>
    intro l hl
    rw [splitOnNL_nil] at hl
    simp at hl
    simp [hl]
  | cons c t ih =>
    intro l hl
    by_cases hc : (c == '\n') = true
    · rw [show c = '\n' from by simpa using hc, splitOnNL_cons_nl] at hl
      rcases List.mem_cons.mp hl with rfl | hl
      · simp
      · exact ih l hl
    · simp only [Bool.not_eq_true] at hc
      rw [splitOnNL_cons_ne t hc] at hl
      obtain ⟨h, u, hu⟩ : ∃ h u, splitOnNL t = h :: u := by
        cases htu : splitOnNL t with
        | nil => exact absurd htu (splitOnNL_ne_nil t)
        | cons h u => exact ⟨h, u, rfl⟩
      rw [hu] at hl
      simp only [List.headD_cons, List.tail_cons] at hl
      rcases List.mem_cons.mp hl with rfl | hl
      · intro hmem
        rcases List.mem_cons.mp hmem with rfl | hmem
        · simp at hc
        · exact ih h (by simp [hu]) hmem
      · exact ih l (by simp [hu, hl])

theorem splitOnNL_break (b : List Char) :
    ∀ (a : List Char), splitOnNL (a ++ '\n' :: b)
      = splitOnNL a ++ splitOnNL b
  | [] => by rw [List.nil_append, splitOnNL_cons_nl, splitOnNL_nil]; rfl
  | c :: a' => by
    by_cases hc : (c == '\n') = true
    · rw [show c = '\n' from by simpa using hc, List.cons_append,
        splitOnNL_cons_nl, splitOnNL_cons_nl, splitOnNL_break b a',
        List.cons_append]
    · simp only [Bool.not_eq_true] at hc
      rw [List.cons_append, splitOnNL_cons_ne _ hc, splitOnNL_cons_ne _ hc,
        splitOnNL_break b a']
      obtain ⟨h, u, hu⟩ : ∃ h u, splitOnNL a' = h :: u := by
        cases htu : splitOnNL a' with
        | nil => exact absurd htu (splitOnNL_ne_nil a')
        | cons h u => exact ⟨h, u, rfl⟩
      rw [hu]
      simp

theorem splitOnNL_of_noNL : ∀ {a : List Char}, '\n' ∉ a → splitOnNL a = [a]
  | [], _ => rfl
  | c :: a', h => by
    have hc : (c == '\n') = false := by
      simp only [beq_eq_false_iff_ne, ne_eq]
      intro hcc
      exact h (by simp [hcc])
    rw [splitOnNL_cons_ne _ hc, splitOnNL_of_noNL (fun hm => h (by simp [hm]))]
    simp

theorem splitOnNL_concat_NL (s : List Char) :
    splitOnNL (s ++ ['\n']) = splitOnNL s ++ [[]] := by
  have : s ++ ['\n'] = s ++ '\n' :: [] := rfl
  rw [this, splitOnNL_break [] s, splitOnNL_nil]

theorem joinSep_cons_head {α : Type} (sep : List α) (c : α) (h : List α) :
    ∀ (t : List (List α)),
      joinSep sep ((c :: h) :: t) = c :: joinSep sep (h :: t)
  | [] => by simp [joinSep_single]
  | y :: u => by rw [joinSep_cons₂, joinSep_cons₂]; simp

theorem joinSep_splitOnNL : ∀ (s : List Char),
    joinSep ['\n'] (splitOnNL s) = s
  | [] => rfl
  | c :: t => by
    by_cases hc : (c == '\n') = true
    · rw [show c = '\n' from by simpa using hc, splitOnNL_cons_nl,
        joinSep_cons_ne _ _ (splitOnNL_ne_nil t), joinSep_splitOnNL t]
      simp
    · simp only [Bool.not_eq_true] at hc
      rw [splitOnNL_cons_ne t hc]
      obtain ⟨h, u, hu⟩ : ∃ h u, splitOnNL t = h :: u := by
        cases htu : splitOnNL t with
        | nil => exact absurd htu (splitOnNL_ne_nil t)
        | cons h u => exact ⟨h, u, rfl⟩
      have ihp := joinSep_splitOnNL t
      rw [hu] at ihp ⊢
      simp only [List.headD_cons, List.tail_cons]
      rw [joinSep_cons_head, ihp]

theorem splitOnNL_joinSep :
    ∀ {xs : List (List Char)}, xs ≠ [] → (∀ l ∈ xs, '\n' ∉ l) →
      splitOnNL (joinSep ['\n'] xs) = xs
  | [], h, _ => absurd rfl h
  | [x], _, hnl => by
    rw [joinSep_single, splitOnNL_of_noNL (hnl x (by simp))]
  | x :: y :: t, _, hnl => by
    rw [joinSep_cons₂, List.append_assoc, List.singleton_append,
      splitOnNL_break _ x, splitOnNL_of_noNL (hnl x (by simp)),
      splitOnNL_joinSep (by simp) (fun l hl => hnl l (by simp [hl]))]
    rfl

theorem splitlines_nil : splitlines [] = [] := rfl

theorem splitlines_concat_NL (s : List Char) :
    splitlines (s ++ ['\n']) = splitOnNL s := by
  rw [splitlines, splitOnNL_concat_NL]
  simp only [List.getLast?_concat, if_true]
  rw [List.dropLast_concat]

theorem splitOnNL_renderLines : ∀ {L : List (List Char)},
    (∀ l ∈ L, '\n' ∉ l) → splitOnNL (renderLines L) = L ++ [[]]
  | [], _ => rfl
  | l :: ls, h => by
    rw [renderLines, splitOnNL_break _ l, splitOnNL_of_noNL (h l (by simp)),
      splitOnNL_renderLines (fun x hx => h x (by simp [hx]))]
    rfl

theorem splitlines_renderLines {L : List (List Char)}
    (h : ∀ l ∈ L, '\n' ∉ l) : splitlines (renderLines L) = L := by
  rw [splitlines, splitOnNL_renderLines h]
  simp only [List.getLast?_concat, if_true]
  rw [List.dropLast_concat]

/-! ## Tokens -/

theorem tokens_nil : tokensOf [] = [] := rfl

theorem tokens_cons_ws {c : Char} (s : List Char) (h : isWSChar c = true) :
    tokensOf (c :: s) = tokensOf s :=
  runsBy_cons_neg _ s (by simp [h])

theorem tokens_break {c : Char} (a b : List Char) (h : isWSChar c = true) :
    tokensOf (a ++ c :: b) = tokensOf a ++ tokensOf b :=
  runs_break _ (by simp [h]) b a

theorem tokens_of_tokenLike {w : List Char} (h : tokenLike w) :
    tokensOf w = [w] :=
  runs_all _ (fun c hc => by simp [h.2 c hc]) h.1

theorem tokens_mem {s w : List Char} (h : w ∈ tokensOf s) :
    w ≠ [] ∧ ∀ c ∈ w, isWSChar c = false := by
  obtain ⟨h1, h2⟩ := runs_mem _ s h
  exact ⟨h1, fun c hc => by simpa using h2 c hc⟩

theorem tokens_mem_tokenLike {s w : List Char} (h : w ∈ tokensOf s) :
    tokenLike w := tokens_mem h

theorem tokens_ws_app {a : List Char} (b : List Char)
    (h : ∀ c ∈ a, isWSChar c = true) : tokensOf (a ++ b) = tokensOf b := by
  induction a with
  | nil => rfl
  | cons c t ih =>
    rw [List.cons_append, tokens_cons_ws _ (h c (by simp)),
      ih (fun d hd => h d (by simp [hd]))]

theorem tokens_renderLines : ∀ (g : List (List Char)),
    tokensOf (renderLines g) = catLists (g.map tokensOf)
  | [] => rfl
  | l :: ls => by
    rw [renderLines, List.map_cons, catLists, ← tokens_renderLines ls]
    exact tokens_break l (renderLines ls) (by simp [isWSChar])

theorem tokens_joinSepNL : ∀ (xs : List (List Char)),
    tokensOf (joinSep ['\n'] xs) = catLists (xs.map tokensOf)
  | [] => rfl
  | [x] => by simp [joinSep_single, catLists]
  | x :: y :: t => by
    rw [joinSep_cons₂, List.map_cons, catLists, List.append_assoc,
      List.singleton_append, tokens_break x _ (by simp [isWSChar]),
      tokens_joinSepNL (y :: t)]

theorem tokens_filter (s : List Char) :
    catLists (tokensOf s) = s.filter (fun c => !isWSChar c) :=
  runs_flat _ s

theorem tokens_ne_nil {s : List Char} {c : Char} (hc : c ∈ s)
    (hws : isWSChar c = false) : tokensOf s ≠ [] := by
  intro h
  have h2 := tokens_filter s
  rw [h] at h2
  have : c ∈ s.filter (fun c => !isWSChar c) :=
    List.mem_filter.mpr ⟨hc, by simp [hws]⟩
  rw [← h2] at this
  simp [catLists] at this

/-! ## `matchesLine` -/

theorem matchesLine_elim {l : List Char} (h : matchesLine l = true) :
    l ≠ [] ∧ ('\n' ∉ l) ∧ ∃ c, lastChar l = some c ∧ isWSChar c = false := by
  rw [matchesLine, Bool.and_eq_true] at h
  obtain ⟨h1, h2⟩ := h
  have hnl : '\n' ∉ l := by
    intro hm
    have := List.all_eq_true.mp h2 _ hm
    simp at this
  cases hlc : lastChar l with
  | none =>
    rw [hlc] at h1
    simp at h1
  | some c =>
    rw [hlc] at h1
    refine ⟨?_, hnl, c, rfl, by simpa using h1⟩
    intro hnil
    subst hnil
    simp [lastChar] at hlc

theorem matchesLine_intro {l : List Char} {c : Char}
    (hc : lastChar l = some c) (hws : isWSChar c = false)
    (hnl : '\n' ∉ l) : matchesLine l = true := by
  rw [matchesLine, hc, Bool.and_eq_true]
  refine ⟨by simp [hws], List.all_eq_true.mpr ?_⟩
  intro x hx
  simp only [Bool.not_eq_eq_eq_not, Bool.not_true, beq_eq_false_iff_ne, ne_eq]
  intro hxc
  subst hxc
  exact hnl hx

theorem matches_tokens_ne {l : List Char} (h : matchesLine l = true) :
    tokensOf l ≠ [] := by
  obtain ⟨-, -, c, hc, hws⟩ := matchesLine_elim h
  exact tokens_ne_nil (lastChar_mem hc) hws

theorem tokenLike_not_nl {w : List Char} (h : tokenLike w) : '\n' ∉ w := by
  intro hm
  have := h.2 _ hm
  simp [isWSChar] at this

theorem tokenLike_not_tab {w : List Char} (h : tokenLike w) : '\t' ∉ w := by
  intro hm
  have := h.2 _ hm
  simp [isWSChar] at this

/-! ## `sepFor` -/

theorem sepFor_congr {s s' : List Char} (w : List Char)
    (h : lastChar s = lastChar s') : sepFor s w = sepFor s' w := by
  rw [sepFor, sepFor, h]

theorem sepFor_cases (s w : List Char) :
    sepFor s w = [' ', ' '] ∨ sepFor s w = [' '] := by
  rw [sepFor]
  split
  · exact Or.inl rfl
  · exact Or.inr rfl

theorem sepFor_spaces {s w : List Char} : ∀ c ∈ sepFor s w, c = ' ' := by
  rcases sepFor_cases s w with h | h <;> rw [h] <;> intro c hc <;>
    simpa using hc

theorem sepFor_ne_nil (s w : List Char) : sepFor s w ≠ [] := by
  rcases sepFor_cases s w with h | h <;> simp [h]

theorem sepFor_length_pos (s w : List Char) : 1 ≤ (sepFor s w).length := by
  rcases sepFor_cases s w with h | h <;> simp [h]

/-! ## `fpStep` unfolding -/

theorem fpStep_fit {ind : List Char} {iw ml : Nat} {acc : List Char}
    {off : Nat} {w : List Char} (hoff : off ≠ 0)
    (hfit : off + (sepFor acc w).length + w.length ≤ ml) :
    fpStep ind iw ml (acc, off) w
      = (acc ++ sepFor acc w ++ w, off + (sepFor acc w).length + w.length) := by
  have hne : off + (sepFor acc w).length + w.length ≠ 0 := by
    have := Nat.pos_of_ne_zero hoff
    omega
  simp only [fpStep]
  rw [if_pos hoff, if_pos hfit, if_neg hne]

theorem fpStep_nofit {ind : List Char} {iw ml : Nat} {acc : List Char}
    {off : Nat} {w : List Char} (hoff : off ≠ 0)
    (hfit : ¬ off + (sepFor acc w).length + w.length ≤ ml) :
    fpStep ind iw ml (acc, off) w
      = ((acc ++ ['\n']) ++ ind ++ w, iw + w.length) := by
  simp only [fpStep]
  rw [if_pos hoff, if_neg hfit, if_pos rfl]

theorem fpStep_zero {ind : List Char} {iw ml : Nat} {acc : List Char}
    {w : List Char} :
    fpStep ind iw ml (acc, 0) w = (acc ++ ind ++ w, iw + w.length) := by
  simp [fpStep]

/-! ## `bodyWrap` -/

theorem bodyWrap_nil (iw ml : Nat) (b : List Char) (off : Nat) :
    bodyWrap iw ml b off [] = [b] := rfl

theorem bodyWrap_cons_fit {iw ml : Nat} (b : List Char) (off : Nat)
    {w : List Char} (ws : List (List Char))
    (h : off + (sepFor b w).length + w.length ≤ ml) :
    bodyWrap iw ml b off (w :: ws)
      = bodyWrap iw ml (b ++ sepFor b w ++ w)
          (off + (sepFor b w).length + w.length) ws := by
  rw [bodyWrap]
  rw [if_pos h]

theorem bodyWrap_cons_nofit {iw ml : Nat} (b : List Char) (off : Nat)
    {w : List Char} (ws : List (List Char))
    (h : ¬ off + (sepFor b w).length + w.length ≤ ml) :
    bodyWrap iw ml b off (w :: ws)
      = b :: bodyWrap iw ml w (iw + w.length) ws := by
  rw [bodyWrap]
  rw [if_neg h]

theorem bodyWrap_ne_nil (iw ml : Nat) :
    ∀ (ws : List (List Char)) (b : List Char) (off : Nat),
      bodyWrap iw ml b off ws ≠ []
  | [], b, off => by simp [bodyWrap_nil]
  | w :: ws, b, off => by
    by_cases h : off + (sepFor b w).length + w.length ≤ ml
    · rw [bodyWrap_cons_fit b off ws h]
      exact bodyWrap_ne_nil iw ml ws _ _
    · rw [bodyWrap_cons_nofit b off ws h]
      simp

theorem bodyWrap_overfull {iw ml : Nat} {off : Nat} (hml : ml < off)
    (b : List Char) (ws : List (List Char)) :
    ∃ rest, bodyWrap iw ml b off ws = b :: rest := by
  cases ws with
  | nil => exact ⟨[], rfl⟩
  | cons w ws =>
    have h : ¬ off + (sepFor b w).length + w.length ≤ ml := by omega
    exact ⟨_, bodyWrap_cons_nofit b off ws h⟩

theorem bodyWrap_forall {iw ml : Nat} (P : List Char → Prop)
    (hext : ∀ b sp w, P b → (∀ c ∈ sp, c = ' ') → tokenLike w →
      P (b ++ sp ++ w)) :
    ∀ (ws : List (List Char)) (b : List Char) (off : Nat),
      (∀ w ∈ ws, tokenLike w) → (∀ w ∈ ws, P w) → P b →
      ∀ l ∈ bodyWrap iw ml b off ws, P l
  | [], b, off, _, _, hb, l, hl => by
    rw [bodyWrap_nil] at hl
    rcases List.mem_singleton.mp hl with rfl
    exact hb
  | w :: ws, b, off, htok, hP, hb, l, hl => by
    by_cases h : off + (sepFor b w).length + w.length ≤ ml
    · rw [bodyWrap_cons_fit b off ws h] at hl
      exact bodyWrap_forall P hext ws _ _
        (fun v hv => htok v (by simp [hv]))
        (fun v hv => hP v (by simp [hv]))
        (hext b _ w hb sepFor_spaces (htok w (by simp))) l hl
    · rw [bodyWrap_cons_nofit b off ws h] at hl
      rcases List.mem_cons.mp hl with rfl | hl
      · exact hb
      · exact bodyWrap_forall P hext ws _ _
          (fun v hv => htok v (by simp [hv]))
          (fun v hv => hP v (by simp [hv]))
          (hP w (by simp)) l hl

theorem bodyWrap_width {iw ml : Nat} :
    ∀ (ws : List (List Char)) (b : List Char) (off : Nat),
      (∀ w ∈ ws, tokenLike w) → off = iw + b.length →
      (off ≤ ml ∨ tokenLike b) →
      ∀ l ∈ bodyWrap iw ml b off ws, iw + l.length ≤ ml ∨ tokenLike l
  | [], b, off, _, hoff, hb, l, hl => by
    rw [bodyWrap_nil] at hl
    rcases List.mem_singleton.mp hl with rfl
    rcases hb with hb | hb
    · exact Or.inl (by omega)
    · exact Or.inr hb
  | w :: ws, b, off, htok, hoff, hb, l, hl => by
    by_cases h : off + (sepFor b w).length + w.length ≤ ml
    · rw [bodyWrap_cons_fit b off ws h] at hl
      refine bodyWrap_width ws _ _ (fun v hv => htok v (by simp [hv])) ?_
        (Or.inl h) l hl
      simp only [List.length_append]
      omega
    · rw [bodyWrap_cons_nofit b off ws h] at hl
      rcases List.mem_cons.mp hl with rfl | hl
      · rcases hb with hb | hb
        · exact Or.inl (by omega)
        · exact Or.inr hb
      · exact bodyWrap_width ws _ _ (fun v hv => htok v (by simp [hv])) rfl
          (Or.inr (htok w (by simp))) l hl

theorem tokens_app_sep {sp : List Char} (b w : List Char)
    (hsp : ∀ c ∈ sp, isWSChar c = true) (hne : sp ≠ []) :
    tokensOf (b ++ sp ++ w) = tokensOf b ++ tokensOf w := by
  cases sp with
  | nil => exact absurd rfl hne
  | cons c sp' =>
    have : b ++ (c :: sp') ++ w = b ++ c :: (sp' ++ w) := by simp
    rw [this, tokens_break b _ (hsp c (by simp)),
      tokens_ws_app w (fun d hd => hsp d (by simp [hd]))]

theorem bodyWrap_tokens {iw ml : Nat} :
    ∀ (ws : List (List Char)) (b : List Char) (off : Nat),
      (∀ w ∈ ws, tokenLike w) →
      catLists ((bodyWrap iw ml b off ws).map tokensOf) = tokensOf b ++ ws
  | [], b, off, _ => by simp [bodyWrap_nil, catLists]
  | w :: ws, b, off, htok => by
    have hw : tokenLike w := htok w (by simp)
    by_cases h : off + (sepFor b w).length + w.length ≤ ml
    · rw [bodyWrap_cons_fit b off ws h,
        bodyWrap_tokens ws _ _ (fun v hv => htok v (by simp [hv])),
        tokens_app_sep b w (fun c hc => by
          rw [sepFor_spaces c hc]; rfl) (sepFor_ne_nil b w),
        tokens_of_tokenLike hw]
      simp
    · rw [bodyWrap_cons_nofit b off ws h, List.map_cons, catLists,
        bodyWrap_tokens ws _ _ (fun v hv => htok v (by simp [hv])),
        tokens_of_tokenLike hw]
      simp

theorem bodyWrap_mem_long {iw ml : Nat} :
    ∀ (ws : List (List Char)) (b : List Char) (off : Nat) {w₀ : List Char},
      (∀ w ∈ ws, w ≠ []) → w₀ ∈ ws → ml < w₀.length →
      w₀ ∈ bodyWrap iw ml b off ws
  | [], _, _, _, _, hmem, _ => by simp at hmem
  | w :: ws, b, off, w₀, hne, hmem, hlong => by
    rcases List.mem_cons.mp hmem with rfl | hmem
    · have h : ¬ off + (sepFor b w₀).length + w₀.length ≤ ml := by
        have := sepFor_length_pos b w₀
        omega
      rw [bodyWrap_cons_nofit b off ws h]
      have hov : ml < iw + w₀.length := by omega
      obtain ⟨rest, hrest⟩ := bodyWrap_overfull hov w₀ ws
      rw [hrest]
      simp
    · by_cases h : off + (sepFor b w).length + w.length ≤ ml
      · rw [bodyWrap_cons_fit b off ws h]
        exact bodyWrap_mem_long ws _ _
          (fun v hv => hne v (by simp [hv])) hmem hlong
      · rw [bodyWrap_cons_nofit b off ws h]
        exact List.mem_cons_of_mem _ (bodyWrap_mem_long ws _ _
          (fun v hv => hne v (by simp [hv])) hmem hlong)

theorem wrapTokens_ne_nil (ind : List Char) (iw ml : Nat)
    (ws : List (List Char)) : wrapTokens ind iw ml ws ≠ [] := by
  cases ws with
  | nil => simp [wrapTokens]
  | cons w ws =>
    rw [wrapTokens]
    simp [bodyWrap_ne_nil]

/-! ## The loop of `format_paragraph` refines `bodyWrap` -/

theorem acc_lastChar {ind b : List Char} (A : List (List Char))
    (hb : b ≠ []) :
    lastChar (joinSep ['\n'] (A ++ [ind ++ b])) = lastChar b := by
  obtain ⟨pre, hpre⟩ := joinSep_snoc_decomp ['\n'] (ind ++ b) A
  rw [hpre, lastChar_append (by simp [hb]), lastChar_append hb]

theorem foldl_fpStep_eq (ind : List Char) (iw ml : Nat) :
    ∀ (ws : List (List Char)) (A : List (List Char)) (b : List Char)
      (off : Nat), b ≠ [] → off ≠ 0 → (∀ w ∈ ws, w ≠ []) →
      (ws.foldl (fpStep ind iw ml)
          (joinSep ['\n'] (A ++ [ind ++ b]), off)).1
        = joinSep ['\n']
            (A ++ (bodyWrap iw ml b off ws).map (fun l => ind ++ l))
  | [], A, b, off, _, _, _ => by
    rw [List.foldl_nil, bodyWrap_nil, List.map_singleton]
  | w :: ws, A, b, off, hb, hoff, hws => by
    have hsep : sepFor (joinSep ['\n'] (A ++ [ind ++ b])) w = sepFor b w :=
      sepFor_congr w (acc_lastChar A hb)
    rw [List.foldl_cons]
    by_cases hfit : off + (sepFor b w).length + w.length ≤ ml
    · rw [fpStep_fit hoff (by rw [hsep]; exact hfit), hsep]
      have hstate : joinSep ['\n'] (A ++ [ind ++ b]) ++ sepFor b w ++ w
          = joinSep ['\n'] (A ++ [ind ++ (b ++ sepFor b w ++ w)]) := by
        rw [List.append_assoc, joinSep_snoc_append]
        simp [List.append_assoc]
      rw [hstate, bodyWrap_cons_fit b off ws hfit]
      exact foldl_fpStep_eq ind iw ml ws A (b ++ sepFor b w ++ w)
        (off + (sepFor b w).length + w.length)
        (by simp [hb]) (by omega) (fun v hv => hws v (by simp [hv]))
    · rw [fpStep_nofit hoff (by rw [hsep]; exact hfit)]
      have hwne : w ≠ [] := hws w (by simp)
      have hstate : (joinSep ['\n'] (A ++ [ind ++ b]) ++ ['\n']) ++ ind ++ w
          = joinSep ['\n'] ((A ++ [ind ++ b]) ++ [ind ++ w]) := by
        rw [joinSep_concat ['\n'] (ind ++ w) (A ++ [ind ++ b]) (by simp)]
        simp [List.append_assoc]
      have hRHS : A ++ ((ind ++ b)
            :: (bodyWrap iw ml w (iw + w.length) ws).map (fun l => ind ++ l))
          = (A ++ [ind ++ b])
            ++ (bodyWrap iw ml w (iw + w.length) ws).map (fun l => ind ++ l) := by
        simp
      rw [hstate, bodyWrap_cons_nofit b off ws hfit, List.map_cons, hRHS]
      exact foldl_fpStep_eq ind iw ml ws (A ++ [ind ++ b]) w
        (iw + w.length) hwne
        (by have : 0 < w.length := List.length_pos.mpr hwne; omega)
        (fun v hv => hws v (by simp [hv]))

theorem format_paragraph_eq (ind : List Char) (iw ml : Nat) (p : List Char) :
    format_paragraph ind iw ml p
      = renderLines (wrapTokens ind iw ml (tokensOf p)) := by
  cases htk : tokensOf p with
  | nil =>
    rw [format_paragraph, htk, List.foldl_nil, wrapTokens]
    simp [renderLines]
  | cons w ws =>
    have hw : tokenLike w := tokens_mem_tokenLike (by rw [htk]; simp)
    have hws : ∀ v ∈ ws, v ≠ [] := fun v hv =>
      (tokens_mem_tokenLike (s := p) (by rw [htk]; simp [hv])).1
    have h0 : (iw + w.length) ≠ 0 := by
      have : 0 < w.length := List.length_pos.mpr hw.1
      omega
    rw [format_paragraph, htk, List.foldl_cons, fpStep_zero, List.nil_append]
    have hmain := foldl_fpStep_eq ind iw ml
      ws [] w (iw + w.length) hw.1 h0 hws
    rw [List.nil_append, joinSep_single, List.nil_append] at hmain
    rw [hmain, wrapTokens,
      renderLines_eq_joinSep _ (by simp [bodyWrap_ne_nil])]

/-! ## The pipeline in structured form -/

theorem mem_of_dropWhile {p : Char → Bool} {l : List Char} {x : Char}
    (h : x ∈ l.dropWhile p) : x ∈ l := (List.dropWhile_sublist p).mem h

theorem strip_complete (text : List Char) :
    completeLines (stripStep (text ++ ['\n'])) = procLines text := by
  rw [stripStep, splitlines_concat_NL, completeLines, splitOnNL_joinSep
    (by simp [splitOnNL_ne_nil])
    (by
      intro l hl
      obtain ⟨l0, hl0, rfl⟩ := List.mem_map.mp hl
      intro hm
      exact splitOnNL_noNL l0 hl0 (mem_of_dropWhile hm)),
    map_dropLast', procLines]

theorem reflow_unfold {text : List Char} (h : text.isEmpty = false)
    (ml tw : Nat) :
    reflow text ml tw
      = joinSep ((text ++ ['\n']).takeWhile isIndentChar ++ ['\n'])
        (((paragraphsOf (completeLines (stripStep (text ++ ['\n'])))).map
            paraText).map
          (format_paragraph ((text ++ ['\n']).takeWhile isIndentChar)
            (((text ++ ['\n']).takeWhile isIndentChar).length
              + ((text ++ ['\n']).takeWhile isIndentChar).count '\t'
                * (tw - 1)) ml)) := by
  simp only [reflow, h, Bool.false_eq_true, if_false]

theorem reflow_eq_assemble (text : List Char) (ml tw : Nat) :
    reflow text ml tw
      = assembleLines (indentOf text) (indentWidthOf text tw) ml
          (procLines text) := by
  by_cases h : text.isEmpty
  · have h0 : text = [] := by simpa using h
    subst h0
    rfl
  · have h' : text.isEmpty = false := by simpa using h
    rw [reflow_unfold h', strip_complete, List.map_map, assembleLines]
    have hfun : (format_paragraph ((text ++ ['\n']).takeWhile isIndentChar)
          (((text ++ ['\n']).takeWhile isIndentChar).length
            + ((text ++ ['\n']).takeWhile isIndentChar).count '\t'
              * (tw - 1)) ml) ∘ paraText
        = fun g => renderLines
            (wrapTokens (indentOf text) (indentWidthOf text tw) ml
              (groupTokens g)) := by
      funext g
      rw [Function.comp_apply, format_paragraph_eq]
      rfl
    rw [hfun]
    rfl

theorem indentOf_all (text : List Char) :
    ∀ c ∈ indentOf text, isIndentChar c = true := by
  intro c hc
  exact mem_takeWhile_p hc

theorem indentOf_noNL (text : List Char) : '\n' ∉ indentOf text := by
  intro h
  have := indentOf_all text _ h
  simp [isIndentChar, INDENT_CHARS] at this

theorem procLines_noNL (text : List Char) :
    ∀ l ∈ procLines text, '\n' ∉ l := by
  intro l hl
  obtain ⟨l0, hl0, rfl⟩ := List.mem_map.mp hl
  intro hm
  exact splitOnNL_noNL l0 ((List.dropLast_sublist _).mem hl0)
    (mem_of_dropWhile hm)

theorem mem_joinSep_elim {α : Type} {x s : List α} :
    ∀ {Ls : List (List (List α))}, x ∈ joinSep [s] Ls →
      x = s ∨ ∃ L ∈ Ls, x ∈ L
  | [], h => by simp [joinSep_nil] at h
  | [X], h => by
    rw [joinSep_single] at h
    exact Or.inr ⟨X, by simp, h⟩
  | X :: Y :: t, h => by
    rw [joinSep_cons₂] at h
    rcases List.mem_append.mp h with h | h
    · rcases List.mem_append.mp h with h | h
      · exact Or.inr ⟨X, by simp, h⟩
      · exact Or.inl (List.mem_singleton.mp h)
    · rcases mem_joinSep_elim h with h | ⟨L, hL, hx⟩
      · exact Or.inl h
      · exact Or.inr ⟨L, by simp [hL], hx⟩

theorem mem_joinSep_of_mem {α : Type} {x s : List α} :
    ∀ {Ls : List (List (List α))} {L : List (List α)},
      L ∈ Ls → x ∈ L → x ∈ joinSep [s] Ls
  | [], L, hL, _ => by simp at hL
  | [X], L, hL, hx => by
    rw [joinSep_single]
    rcases List.mem_singleton.mp hL with rfl
    exact hx
  | X :: Y :: t, L, hL, hx => by
    rw [joinSep_cons₂]
    rcases List.mem_cons.mp hL with rfl | hL
    · exact List.mem_append.mpr (Or.inl (List.mem_append.mpr (Or.inl hx)))
    · exact List.mem_append.mpr (Or.inr (mem_joinSep_of_mem hL hx))

theorem groupTokens_tokenLike {g : List (List Char)} :
    ∀ w ∈ groupTokens g, tokenLike w := fun _ hw => tokens_mem_tokenLike hw

theorem wrapTokens_noNL {ind : List Char} {iw ml : Nat}
    (hind : '\n' ∉ ind) {ws : List (List Char)}
    (hws : ∀ w ∈ ws, tokenLike w) :
    ∀ l ∈ wrapTokens ind iw ml ws, '\n' ∉ l := by
  intro l hl
  cases ws with
  | nil =>
    rw [wrapTokens] at hl
    rcases List.mem_singleton.mp hl with rfl
    simp
  | cons w ws' =>
    rw [wrapTokens] at hl
    obtain ⟨b, hb, rfl⟩ := List.mem_map.mp hl
    have hbnl : '\n' ∉ b := by
      refine bodyWrap_forall (fun l => '\n' ∉ l) ?_ ws' w (iw + w.length)
        (fun v hv => hws v (by simp [hv]))
        (fun v hv => tokenLike_not_nl (hws v (by simp [hv])))
        (tokenLike_not_nl (hws w (by simp))) b hb
      intro b' sp w' hb' hsp hw' hmem
      rcases List.mem_append.mp hmem with hmem | hmem
      · rcases List.mem_append.mp hmem with hmem | hmem
        · exact hb' hmem
        · have := hsp _ hmem
          simp at this
      · exact tokenLike_not_nl hw' hmem
    intro hmem
    rcases List.mem_append.mp hmem with hmem | hmem
    · exact hind hmem
    · exact hbnl hmem

theorem assemble_lines {ind : List Char} {iw ml : Nat}
    {pls : List (List Char)} (hind : '\n' ∉ ind) :
    linesOf (assembleLines ind iw ml pls)
      = joinSep [ind]
          ((paragraphsOf pls).map
            (fun g => wrapTokens ind iw ml (groupTokens g))) := by
  rw [assembleLines, linesOf]
  have hmm : ((paragraphsOf pls).map
        (fun g => renderLines (wrapTokens ind iw ml (groupTokens g))))
      = ((paragraphsOf pls).map
          (fun g => wrapTokens ind iw ml (groupTokens g))).map renderLines :=
    by rw [List.map_map]; rfl
  rw [hmm, ← renderLines_joinSep]
  apply splitlines_renderLines
  intro l hl
  rcases mem_joinSep_elim hl with rfl | ⟨L, hL, hx⟩
  · exact hind
  · obtain ⟨g, hg, rfl⟩ := List.mem_map.mp hL
    exact wrapTokens_noNL hind groupTokens_tokenLike l hx

theorem reflow_lines (text : List Char) (ml tw : Nat) :
    linesOf (reflow text ml tw)
      = joinSep [indentOf text]
          ((paragraphsOf (procLines text)).map
            (fun g => wrapTokens (indentOf text) (indentWidthOf text tw) ml
              (groupTokens g))) := by
  rw [reflow_eq_assemble]
  exact assemble_lines (indentOf_noNL text)

/-! ## Support for the claim theorems -/

theorem isIndentChar_ne_nl {c : Char} (h : isIndentChar c = true) :
    (c == '\n') = false := by
  simp only [isIndentChar, INDENT_CHARS] at h
  rcases (by simpa using h : c = ' ' ∨ c = '\t' ∨ c = '#' ∨ c = '/'
      ∨ c = ';' ∨ c = '*' ∨ c = '!' ∨ c = '-') with
    rfl | rfl | rfl | rfl | rfl | rfl | rfl | rfl <;> rfl

theorem takeWhile_isPref {α : Type} (p : α → Bool) (l : List α) :
    l.takeWhile p <+: l :=
  ⟨l.dropWhile p, List.takeWhile_append_dropWhile p l⟩

theorem takeWhile_mono_pred {q r : Char → Bool}
    (h : ∀ c, q c = true → r c = true) :
    ∀ (l : List Char), l.takeWhile q <+: l.takeWhile r
  | [] => by simp
  | x :: t => by
    rw [List.takeWhile_cons, List.takeWhile_cons]
    by_cases hx : q x = true
    · rw [hx, h x hx]
      simp only [if_true]
      exact List.cons_prefix_cons.mpr ⟨rfl, takeWhile_mono_pred h t⟩
    · simp only [Bool.not_eq_true] at hx
      rw [hx]
      simp

theorem pref_takeWhile {q : Char → Bool} :
    ∀ {p l : List Char}, p <+: l → (∀ c ∈ p, q c = true) →
      p <+: l.takeWhile q
  | [], l, _, _ => by simp
  | c :: p', l, hpre, hall => by
    obtain ⟨t, ht⟩ := hpre
    subst ht
    rw [List.cons_append, List.takeWhile_cons, hall c (by simp)]
    simp only [if_true]
    refine List.cons_prefix_cons.mpr ⟨rfl, ?_⟩
    exact pref_takeWhile ⟨t, rfl⟩ (fun d hd => hall d (by simp [hd]))

theorem indentOf_eq_takeWhile (text : List Char) :
    indentOf text = text.takeWhile isIndentChar := by
  rw [indentOf]
  have : text ++ ['\n'] = text ++ '\n' :: [] := rfl
  rw [this, takeWhile_append_neg text [] (by rfl)]

theorem groupTokens_ne_nil {pls : List (List Char)} {g : List (List Char)}
    (hg : g ∈ paragraphsOf pls) : groupTokens g ≠ [] := by
  obtain ⟨hne, hall⟩ := runs_mem matchesLine pls hg
  cases g with
  | nil => exact absurd rfl hne
  | cons l₀ g' =>
    rw [groupTokens, paraText, renderLines,
      tokens_break l₀ _ (by simp [isWSChar])]
    intro h
    rw [List.append_eq_nil] at h
    exact matches_tokens_ne (hall l₀ (by simp)) h.1

theorem colWidth_append (tw : Nat) (x y : List Char) :
    colWidth tw (x ++ y) = colWidth tw x + colWidth tw y := by
  rw [colWidth, colWidth, colWidth, List.length_append, List.count_append]
  ring

theorem colWidth_of_no_tab {tw : Nat} {l : List Char} (h : '\t' ∉ l) :
    colWidth tw l = l.length := by
  rw [colWidth, List.count_eq_zero.mpr h]
  simp

theorem bodyWrap_no_tab {iw ml : Nat} {ws : List (List Char)}
    (hws : ∀ w ∈ ws, tokenLike w) {b : List Char} {off : Nat}
    (hb : '\t' ∉ b) : ∀ l ∈ bodyWrap iw ml b off ws, '\t' ∉ l := by
  refine bodyWrap_forall (fun l => '\t' ∉ l) ?_ ws b off hws
    (fun v hv => tokenLike_not_tab (hws v hv)) hb
  intro b' sp w' hb' hsp hw' hmem
  rcases List.mem_append.mp hmem with hmem | hmem
  · rcases List.mem_append.mp hmem with hmem | hmem
    · exact hb' hmem
    · have := hsp _ hmem
      simp at this
  · exact tokenLike_not_tab hw' hmem

/-! ## Claim theorems -/

/-- C5: the extracted indent is the longest prefix of the input's first
line consisting only of indent-set characters, and the indent width is
`len(indent) + indent.count('\t') * (tab_width - 1)`. -/
theorem C5_indent_extraction (text : List Char) (tw : Nat) :
    (∀ c ∈ indentOf text, isIndentChar c = true)
    ∧ indentOf text <+: firstLineOf text
    ∧ (∀ p : List Char, p <+: firstLineOf text →
        (∀ c ∈ p, isIndentChar c = true) → p <+: indentOf text)
    ∧ indentWidthOf text tw
        = (indentOf text).length + (indentOf text).count '\t' * (tw - 1) := by
  refine ⟨indentOf_all text, ?_, ?_, rfl⟩
  · rw [indentOf_eq_takeWhile, firstLineOf]
    exact takeWhile_mono_pred
      (fun c hc => by rw [Bool.not_eq_eq_eq_not, Bool.not_true,
        isIndentChar_ne_nl hc]) text
  · intro p hp hall
    rw [indentOf_eq_takeWhile]
    exact pref_takeWhile (hp.trans (takeWhile_isPref _ text)) hall

/-- C5 witness: the indent extraction evaluated at `"# x"` with
`tab_width = 4`. -/
theorem C5_indent_extraction_witness :
    (∀ c ∈ indentOf ("# x".toList), isIndentChar c = true)
    ∧ indentOf ("# x".toList) <+: firstLineOf ("# x".toList)
    ∧ (∀ p : List Char, p <+: firstLineOf ("# x".toList) →
        (∀ c ∈ p, isIndentChar c = true) → p <+: indentOf ("# x".toList))
    ∧ indentWidthOf ("# x".toList) 4
        = (indentOf ("# x".toList)).length
          + (indentOf ("# x".toList)).count '\t' * (4 - 1) :=
  C5_indent_extraction ("# x".toList) 4

/-- C3: when a word is appended to a nonempty current line (`offset ≠ 0`
and the word fits), the loop appends exactly `sepFor` then the word, and
`sepFor` is two spaces precisely when the accumulated text ends in `'.'`
and the word starts with an uppercase ASCII letter, one space otherwise. -/
theorem C3_sentence_spacing (ind : List Char) (iw ml : Nat)
    (st : List Char × Nat) (word : List Char) (hne : st.2 ≠ 0)
    (hfit : st.2 + (sepFor st.1 word).length + word.length ≤ ml) :
    fpStep ind iw ml st word
      = (st.1 ++ sepFor st.1 word ++ word,
          st.2 + (sepFor st.1 word).length + word.length)
    ∧ (sepFor st.1 word = [' ', ' ']
        ↔ (lastChar st.1 = some '.' ∧ upperFirst word = true))
    ∧ (sepFor st.1 word = [' ']
        ↔ ¬(lastChar st.1 = some '.' ∧ upperFirst word = true))
    ∧ (upperFirst word = true
        ↔ ∃ c, word.head? = some c ∧ c ∈ UPPER_CHARS) := by
  refine ⟨fpStep_fit hne hfit, ?_, ?_, ?_⟩
  · rw [sepFor]
    split <;> simp_all
  · rw [sepFor]
    split <;> simp_all
  · rw [upperFirst]
    cases word with
    | nil => simp
    | cons c w' =>
      simp only [List.head?_cons, Option.some_inj]
      constructor
      · intro h
        exact ⟨c, rfl, by simpa [List.contains_iff_exists_mem_beq] using h⟩
      · rintro ⟨d, rfl, hd⟩
        simpa [List.contains_iff_exists_mem_beq] using hd

/-- C3 witness: appending `"Boy"` to a line ending in `"A."` with room to
spare inserts two spaces. -/
theorem C3_sentence_spacing_witness :
    (("A.".toList, 5) : List Char × Nat).2 ≠ 0
    ∧ ("A.".toList, 5).2
        + (sepFor ("A.".toList, 5).1 ("Boy".toList)).length
        + ("Boy".toList).length ≤ 20
    ∧ (fpStep [] 0 20 ("A.".toList, 5) ("Boy".toList)
        = (("A.".toList) ++ sepFor ("A.".toList) ("Boy".toList)
            ++ "Boy".toList, 5 + 2 + 3)
      ∧ (sepFor ("A.".toList) ("Boy".toList) = [' ', ' ']
          ↔ (lastChar ("A.".toList) = some '.'
              ∧ upperFirst ("Boy".toList) = true))
      ∧ (sepFor ("A.".toList) ("Boy".toList) = [' ']
          ↔ ¬(lastChar ("A.".toList) = some '.'
              ∧ upperFirst ("Boy".toList) = true))
      ∧ (upperFirst ("Boy".toList) = true
          ↔ ∃ c, ("Boy".toList).head? = some c ∧ c ∈ UPPER_CHARS)) :=
  ⟨by decide, by decide,
    C3_sentence_spacing [] 0 20 ("A.".toList, 5) ("Boy".toList)
      (by decide) (by decide)⟩

/-- C7: paragraphs are reflowed in source order, and the output is the
reflowed paragraphs joined by exactly one separator line consisting of the
indent followed by a newline (stated both at the string level and at the
line level). -/
theorem C7_paragraph_joining (text : List Char) (ml tw : Nat) :
    reflow text ml tw
      = joinSep (indentOf text ++ ['\n'])
          ((paragraphsOf (procLines text)).map
            (fun g => format_paragraph (indentOf text)
              (indentWidthOf text tw) ml (paraText g)))
    ∧ linesOf (reflow text ml tw)
      = joinSep [indentOf text]
          ((paragraphsOf (procLines text)).map
            (fun g => wrapTokens (indentOf text) (indentWidthOf text tw) ml
              (groupTokens g))) := by
  refine ⟨?_, reflow_lines text ml tw⟩
  rw [reflow_eq_assemble, assembleLines]
  have hfun : (fun g => renderLines
        (wrapTokens (indentOf text) (indentWidthOf text tw) ml
          (groupTokens g)))
      = fun g => format_paragraph (indentOf text) (indentWidthOf text tw) ml
          (paraText g) := by
    funext g
    rw [format_paragraph_eq]
    rfl
  rw [hfun]

/-- C8: every output line (blank separator lines included) begins with
exactly the extracted indent. -/
theorem C8_indent_uniformity (text : List Char) (ml tw : Nat) :
    ∀ l ∈ linesOf (reflow text ml tw), indentOf text <+: l := by
  intro l hl
  rw [reflow_lines] at hl
  rcases mem_joinSep_elim hl with rfl | ⟨L, hL, hx⟩
  · exact List.prefix_rfl
  · obtain ⟨g, hg, rfl⟩ := List.mem_map.mp hL
    cases hgt : groupTokens g with
    | nil => exact absurd hgt (groupTokens_ne_nil hg)
    | cons w ws =>
      rw [hgt, wrapTokens] at hx
      obtain ⟨b, hb, rfl⟩ := List.mem_map.mp hx
      exact List.prefix_append _ b

/-- C8 witness: the output line of `reflow "hi\n"` starts with the (empty)
indent. -/
theorem C8_indent_uniformity_witness :
    ("hi".toList ∈ linesOf (reflow ("hi\n".toList) 80 1))
    ∧ indentOf ("hi\n".toList) <+: "hi".toList :=
  ⟨by decide,
    C8_indent_uniformity ("hi\n".toList) 80 1 ("hi".toList) (by decide)⟩

/-- C1 counterexample: with input `"## abc\n"`, `max_line_length = 5` and
`tab_width = 1`, the single output line `"## abc"` has column width `6 > 5`
but does not consist of a single token longer than `max_line_length`: its
tokens are `"##"` and `"abc"`, of lengths `2` and `3`, both `≤ 5` (and even
the token following the indent, `"abc"`, has length `3 ≤ 5`). -/
theorem C1_counterexample :
    linesOf (reflow ("## abc\n".toList) 5 1) = ["## abc".toList]
    ∧ 5 < colWidth 1 ("## abc".toList)
    ∧ tokensOf ("## abc".toList) = ["##".toList, "abc".toList]
    ∧ ("##".toList).length ≤ 5 ∧ ("abc".toList).length ≤ 5
    ∧ indentOf ("## abc\n".toList) = "## ".toList := by
  refine ⟨by decide, by decide, by decide, by decide, by decide, by decide⟩

/-- C1 (amended): every output line has column width (tabs of the indent
counted at `tab_width` columns) at most `max_line_length`, except lines
that consist of the indent followed by at most one token: a lone token
that does not fit together with the indent, or a bare-indent separator
line. -/
theorem C1_width_bound (text : List Char) (ml tw : Nat) (htw : 1 ≤ tw) :
    ∀ l ∈ linesOf (reflow text ml tw),
      colWidth tw l ≤ ml
      ∨ ∃ b, l = indentOf text ++ b ∧ (b = [] ∨ tokenLike b) := by
  intro l hl
  rw [reflow_lines] at hl
  rcases mem_joinSep_elim hl with rfl | ⟨L, hL, hx⟩
  · exact Or.inr ⟨[], by simp, Or.inl rfl⟩
  · obtain ⟨g, hg, rfl⟩ := List.mem_map.mp hL
    cases hgt : groupTokens g with
    | nil => exact absurd hgt (groupTokens_ne_nil hg)
    | cons w ws =>
      rw [hgt, wrapTokens] at hx
      obtain ⟨b, hb, rfl⟩ := List.mem_map.mp hx
      have htokens : ∀ v ∈ w :: ws, tokenLike v := by
        rw [← hgt]
        exact groupTokens_tokenLike
      have hwidth := bodyWrap_width ws w (indentWidthOf text tw + w.length)
        (fun v hv => htokens v (by simp [hv])) rfl
        (Or.inr (htokens w (by simp))) b hb
      rcases hwidth with hwidth | hwidth
      · refine Or.inl ?_
        have htab : '\t' ∉ b :=
          bodyWrap_no_tab (fun v hv => htokens v (by simp [hv]))
            (tokenLike_not_tab (htokens w (by simp))) b hb
        rw [colWidth_append, colWidth_of_no_tab htab]
        have hindw : colWidth tw (indentOf text) = indentWidthOf text tw :=
          rfl
        omega
      · exact Or.inr ⟨b, rfl, Or.inr hwidth⟩

/-- C1 witness: the width-bound statement evaluated on `"hi.  there\n"`
with `max_line_length = 6`, `tab_width = 1`, at the first output line. -/
theorem C1_width_bound_witness :
    (1 ≤ 1 ∧ "hi.".toList ∈ linesOf (reflow ("hi. there\n".toList) 6 1))
    ∧ (colWidth 1 ("hi.".toList) ≤ 6
      ∨ ∃ b, "hi.".toList = indentOf ("hi. there\n".toList) ++ b
          ∧ (b = [] ∨ tokenLike b)) :=
  ⟨⟨by decide, by decide⟩,
    C1_width_bound ("hi. there\n".toList) 6 1 (by decide) ("hi.".toList)
      (by decide)⟩

/-- C6: a token longer than `max_line_length` is emitted alone on its own
line, unsplit: the line consisting of exactly the indent followed by that
token occurs among the output lines. -/
theorem C6_long_token_alone (text : List Char) (ml tw : Nat)
    {g : List (List Char)} {w : List Char}
    (hg : g ∈ paragraphsOf (procLines text)) (hw : w ∈ groupTokens g)
    (hlong : ml < w.length) :
    (indentOf text ++ w) ∈ linesOf (reflow text ml tw) := by
  rw [reflow_lines]
  refine mem_joinSep_of_mem (List.mem_map_of_mem _ hg) ?_
  cases hgt : groupTokens g with
  | nil =>
    rw [hgt] at hw
    simp at hw
  | cons w₁ ws =>
    rw [hgt] at hw
    rw [wrapTokens]
    have htokens : ∀ v ∈ w₁ :: ws, tokenLike v := by
      rw [← hgt]
      exact groupTokens_tokenLike
    rcases List.mem_cons.mp hw with rfl | hw
    · have hov : ml < indentWidthOf text tw + w.length := by omega
      obtain ⟨rest, hrest⟩ := bodyWrap_overfull hov w ws
      rw [hrest]
      exact List.mem_map_of_mem _ (by simp)
    · exact List.mem_map_of_mem _
        (bodyWrap_mem_long ws w₁ (indentWidthOf text tw + w₁.length)
          (fun v hv => (htokens v (by simp [hv])).1) hw hlong)

/-- C6 witness: the 6-character token of `"aaaaaa\n"` with
`max_line_length = 3` appears alone as an output line. -/
theorem C6_long_token_alone_witness :
    (["aaaaaa".toList] ∈ paragraphsOf (procLines ("aaaaaa\n".toList))
      ∧ "aaaaaa".toList ∈ groupTokens ["aaaaaa".toList]
      ∧ 3 < ("aaaaaa".toList).length)
    ∧ (indentOf ("aaaaaa\n".toList) ++ "aaaaaa".toList)
        ∈ linesOf (reflow ("aaaaaa\n".toList) 3 1) :=
  ⟨⟨by decide, by decide, by decide⟩,
    C6_long_token_alone ("aaaaaa\n".toList) 3 1
      (g := ["aaaaaa".toList]) (w := "aaaaaa".toList)
      (by decide) (by decide) (by decide)⟩

/-! ## C9: the stripping stage -/

theorem splitlines_noNL {s : List Char} :
    ∀ l ∈ splitlines s, '\n' ∉ l := by
  intro l hl
  rw [splitlines] at hl
  split at hl
  · exact splitOnNL_noNL l ((List.dropLast_sublist _).mem hl)
  · exact splitOnNL_noNL l hl

theorem splitlines_joinSep {xs : List (List Char)} (hne : xs ≠ [])
    (hnl : ∀ l ∈ xs, '\n' ∉ l)
    (hlast : xs.getLast? ≠ some ([] : List Char)) :
    splitlines (joinSep ['\n'] xs) = xs := by
  rw [splitlines, splitOnNL_joinSep hne hnl, if_neg hlast]

theorem stripLine_stripLine (l : List Char) :
    stripLine (stripLine l) = stripLine l :=
  dropWhile_dropWhile isIndentChar l

/-- C9 counterexample: the stripping stage is not idempotent: on
`"a\n\n"` it yields `"a\n"`, and re-stripping `"a\n"` yields `"a"` (the
`splitlines`-then-join step drops the trailing newline). -/
theorem C9_counterexample :
    stripStep (stripStep ("a\n\n".toList)) ≠ stripStep ("a\n\n".toList)
    ∧ stripStep ("a\n\n".toList) = "a\n".toList
    ∧ stripStep ("a\n".toList) = "a".toList := by
  refine ⟨by decide, by decide, by decide⟩

/-- C9 (amended): the stripping stage is idempotent on every text whose
last `splitlines` segment keeps at least one character after stripping
(vacuously on texts with no segments); on other texts a second pass
additionally drops a trailing newline. -/
theorem C9_strip_idempotent (s : List Char)
    (h : splitlines s = []
      ∨ stripLine ((splitlines s).getLastD []) ≠ []) :
    stripStep (stripStep s) = stripStep s := by
  cases hxs : splitlines s with
  | nil =>
    have h1 : stripStep s = [] := by
      rw [stripStep, hxs]
      rfl
    rw [h1]
    rfl
  | cons x xs' =>
    have hlast0 : stripLine ((x :: xs').getLastD []) ≠ [] := by
      rcases h with h | h
      · rw [hxs] at h
        simp at h
      · rw [hxs] at h
        exact h
    obtain ⟨y, hy⟩ : ∃ y, (x :: xs').getLast? = some y := by
      cases hys : (x :: xs').getLast? with
      | none =>
        rw [List.getLast?_eq_none_iff] at hys
        simp at hys
      | some y => exact ⟨y, rfl⟩
    have hyD : (x :: xs').getLastD [] = y := by
      rw [List.getLastD_eq_getLast?, hy]
      rfl
    rw [hyD] at hlast0
    have h1 : stripStep s = joinSep ['\n'] ((x :: xs').map stripLine) := by
      rw [stripStep, hxs]
    rw [h1]
    rw [stripStep, splitlines_joinSep (by simp)
      (by
        intro l hl
        obtain ⟨l0, hl0, rfl⟩ := List.mem_map.mp hl
        intro hm
        exact splitlines_noNL l0 (by rw [hxs]; exact hl0)
          (mem_of_dropWhile hm))
      (by
        rw [List.getLast?_map, hy]
        intro hc
        rw [Option.map_eq_some'] at hc
        obtain ⟨a, ha1, ha2⟩ := hc
        rw [Option.some_inj] at ha1
        subst ha1
        exact hlast0 ha2)]
    rw [List.map_map]
    congr 1
    exact List.map_congr_left (fun l _ => stripLine_stripLine l)

/-- C9 witness: re-stripping is a no-op on `"a\n"`. -/
theorem C9_strip_idempotent_witness :
    (splitlines ("a\n".toList) = []
      ∨ stripLine ((splitlines ("a\n".toList)).getLastD []) ≠ [])
    ∧ stripStep (stripStep ("a\n".toList)) = stripStep ("a\n".toList) :=
  ⟨by decide, C9_strip_idempotent ("a\n".toList) (by decide)⟩

/-! ## C10: the final unterminated line -/

/-- C10 counterexample: with input `"a\na"` (no trailing newline) the
output is `"a\n"`; the token `"a"` of the input's final line does appear
in the output (coming from the first line), so the tokens of the final
line do not "appear nowhere" — the final line is merely excluded from
every paragraph (see the amended theorem). -/
theorem C10_counterexample :
    reflow ("a\na".toList) 80 4 = "a\n".toList
    ∧ tokensOf ("a".toList) = [['a']]
    ∧ ['a'] ∈ tokensOf (reflow ("a\na".toList) 80 4) := by
  refine ⟨by decide, by decide, by decide⟩

theorem last_nl_decomp {text : List Char} (h : '\n' ∈ text) :
    ∃ u v, text = u ++ '\n' :: v ∧ '\n' ∉ v
      ∧ truncAtLastNL text = u ++ ['\n'] := by
  have hsplit : text.reverse.takeWhile (fun c => !(c == '\n'))
      ++ text.reverse.dropWhile (fun c => !(c == '\n')) = text.reverse :=
    List.takeWhile_append_dropWhile _ _
  have hdne : text.reverse.dropWhile (fun c => !(c == '\n')) ≠ [] := by
    intro h0
    rw [h0, List.append_nil] at hsplit
    have hq := mem_takeWhile_p (p := fun c => !(c == '\n'))
      (l := text.reverse) (x := '\n')
      (by rw [hsplit]; exact List.mem_reverse.mpr h)
    simp at hq
  obtain ⟨x, xs, hx⟩ :
      ∃ x xs, text.reverse.dropWhile (fun c => !(c == '\n')) = x :: xs := by
    cases hc : text.reverse.dropWhile (fun c => !(c == '\n')) with
    | nil => exact absurd hc hdne
    | cons x xs => exact ⟨x, xs, rfl⟩
  have hxNL : x = '\n' := by
    have h2 := List.head?_dropWhile_not (fun c => !(c == '\n')) text.reverse
    rw [hx] at h2
    simpa using h2
  subst hxNL
  refine ⟨xs.reverse,
    (text.reverse.takeWhile (fun c => !(c == '\n'))).reverse, ?_, ?_, ?_⟩
  · conv_lhs => rw [← List.reverse_reverse text, ← hsplit]
    rw [hx, List.reverse_append]
    simp
  · intro hm
    have := mem_takeWhile_p (List.mem_reverse.mp hm)
    simp at this
  · rw [truncAtLastNL, hx]
    simp

/-- C10 (amended): reflow ignores everything after the input's last
newline: `reflow text = reflow (truncAtLastNL text)`.  In particular an
unterminated final line is excluded from every paragraph and contributes
no tokens of its own to the output (though equal tokens from earlier
lines may still appear, as the counterexample shows). -/
theorem C10_final_line_dropped (text : List Char) (ml tw : Nat) :
    reflow text ml tw = reflow (truncAtLastNL text) ml tw := by
  by_cases hNL : '\n' ∈ text
  · obtain ⟨u, v, rfl, hv, htr⟩ := last_nl_decomp hNL
    rw [htr, reflow_eq_assemble, reflow_eq_assemble]
    have hind : indentOf (u ++ '\n' :: v) = indentOf (u ++ ['\n']) := by
      rw [indentOf, indentOf]
      have e1 : (u ++ '\n' :: v) ++ ['\n'] = u ++ '\n' :: (v ++ ['\n']) := by
        simp
      have e2 : (u ++ ['\n']) ++ ['\n'] = u ++ '\n' :: ['\n'] := by simp
      rw [e1, e2, takeWhile_append_neg u _ (by rfl),
        takeWhile_append_neg u _ (by rfl)]
    have hpls : procLines (u ++ '\n' :: v) = procLines (u ++ ['\n']) := by
      rw [procLines, procLines, splitOnNL_break v u, splitOnNL_of_noNL hv,
        splitOnNL_concat_NL, List.dropLast_concat, List.dropLast_concat]
    rw [indentWidthOf, indentWidthOf, hind, hpls]
  · have htr : truncAtLastNL text = [] := by
      rw [truncAtLastNL, dropWhile_of_all, List.reverse_nil]
      intro c hc
      have hct : c ∈ text := List.mem_reverse.mp hc
      have hcne : c ≠ '\n' := fun hcc => hNL (hcc ▸ hct)
      simp [hcne]
    rw [htr, reflow_eq_assemble text]
    have hpe : procLines text = [] := by
      rw [procLines, splitOnNL_of_noNL hNL]
      rfl
    rw [hpe]
    rfl

/-! ## C2: word preservation -/

theorem lastChar_decomp : ∀ {s : List Char} {c : Char},
    lastChar s = some c → ∃ u, s = u ++ [c]
  | [], c, h => by simp [lastChar] at h
  | [x], c, h => by
    simp only [lastChar, Option.some_inj] at h
    exact ⟨[], by simp [h]⟩
  | x :: y :: t, c, h => by
    rw [lastChar_cons_ne (by simp)] at h
    obtain ⟨u, hu⟩ := lastChar_decomp h
    exact ⟨x :: u, by simp [hu]⟩

theorem catLists_append {α : Type} (A B : List (List α)) :
    catLists (A ++ B) = catLists A ++ catLists B := by
  induction A with
  | nil => rfl
  | cons x t ih => simp [catLists, ih]

theorem catLists_catLists {α β : Type} (f : α → List β) :
    ∀ (Gs : List (List α)),
      catLists ((catLists Gs).map f)
        = catLists (Gs.map (fun g => catLists (g.map f)))
  | [] => rfl
  | g :: Gs => by
    rw [catLists, List.map_append, catLists_append, List.map_cons, catLists,
      catLists_catLists f Gs]

theorem filter_cat_eq {α β : Type} (q : α → Bool) (f : α → List β) :
    ∀ (ls : List α), (∀ l ∈ ls, q l = true ∨ f l = []) →
      catLists ((ls.filter q).map f) = catLists (ls.map f)
  | [], _ => rfl
  | l :: ls, h => by
    rw [List.filter_cons]
    by_cases hq : q l = true
    · rw [hq]
      simp only [if_true]
      rw [List.map_cons, List.map_cons, catLists, catLists,
        filter_cat_eq q f ls (fun x hx => h x (by simp [hx]))]
    · simp only [Bool.not_eq_true] at hq
      rw [hq]
      simp only [Bool.false_eq_true, if_false]
      have hf : f l = [] := by
        rcases h l (by simp) with h' | h'
        · rw [h'] at hq
          simp at hq
        · exact h'
      rw [List.map_cons, catLists, hf,
        filter_cat_eq q f ls (fun x hx => h x (by simp [hx]))]
      rfl

theorem joinSep_map_cat {γ β : Type} (x : γ) (f : γ → List β)
    (hf : f x = []) :
    ∀ (Ls : List (List γ)),
      catLists ((joinSep [x] Ls).map f)
        = catLists (Ls.map (fun L => catLists (L.map f)))
  | [] => rfl
  | [X] => by
    rw [joinSep_single, List.map_cons, catLists]
    simp [catLists]
  | X :: Y :: t => by
    rw [joinSep_cons₂, List.map_append, List.map_append, catLists_append,
      catLists_append, joinSep_map_cat x f hf (Y :: t), List.map_cons,
      catLists]
    simp [catLists, hf]

theorem stripLine_noNL {l : List Char} (h : '\n' ∉ l) :
    '\n' ∉ stripLine l := fun hm => h (mem_of_dropWhile hm)

theorem tokens_stripLine {l : List Char}
    (h : ∀ c ∈ l.takeWhile isIndentChar, isWSChar c = true) :
    tokensOf l = tokensOf (stripLine l) := by
  conv_lhs => rw [← List.takeWhile_append_dropWhile isIndentChar l]
  exact tokens_ws_app _ h

/-- The tokens of the whole pipeline input, computed per paragraph. -/
theorem tokens_procLines (text : List Char)
    (hends : lastChar text = some '\n')
    (hruns : ∀ l ∈ splitOnNL text, ∀ c ∈ l.takeWhile isIndentChar,
      isWSChar c = true) :
    tokensOf text = catLists ((procLines text).map tokensOf) := by
  obtain ⟨u, rfl⟩ := lastChar_decomp hends
  have h1 : tokensOf (u ++ ['\n'])
      = catLists ((splitOnNL (u ++ ['\n'])).map tokensOf) := by
    conv_lhs => rw [← joinSep_splitOnNL (u ++ ['\n'])]
    rw [tokens_joinSepNL]
  rw [h1, splitOnNL_concat_NL, List.map_append, catLists_append]
  have h2 : (splitOnNL u).map tokensOf
      = (splitOnNL u).map (fun l => tokensOf (stripLine l)) :=
    List.map_congr_left (fun l hl => tokens_stripLine
      (hruns l (by rw [splitOnNL_concat_NL]; simp [hl])))
  rw [h2, procLines, splitOnNL_concat_NL, List.dropLast_concat,
    List.map_map]
  simp only [catLists, tokens_nil, List.map_cons, List.map_nil,
    List.append_nil, List.nil_append]
  rfl

/-- C2 counterexample: word preservation fails in general: the input
`"a"` (no trailing newline) has token multiset `{"a"}` but reflows to the
empty output; similarly `"a \n"` (trailing blank) reflows to empty. -/
theorem C2_counterexample :
    reflow ("a".toList) 80 4 = []
    ∧ tokensOf ("a".toList) = [['a']]
    ∧ reflow ("a \n".toList) 80 4 = []
    ∧ tokensOf ("a \n".toList) = [['a']] := by
  refine ⟨by decide, by decide, by decide, by decide⟩

/-- C2 (amended): for every input that ends with a newline, whose lines
have only spaces and tabs in their leading indent-set run, and whose
lines carry no trailing whitespace after their last token (after
stripping, each line is empty or ends in a non-whitespace character), the
multiset of whitespace-delimited tokens of the output — ignoring the
indent prefix of each line — equals the multiset of tokens of the
input. -/
theorem C2_word_preservation (text : List Char) (ml tw : Nat)
    (hends : lastChar text = some '\n')
    (hruns : ∀ l ∈ splitOnNL text, ∀ c ∈ l.takeWhile isIndentChar,
      isWSChar c = true)
    (htrail : ∀ l ∈ splitOnNL text,
      stripLine l = []
      ∨ ∃ c, lastChar (stripLine l) = some c ∧ isWSChar c = false) :
    (outTokens (indentOf text) (reflow text ml tw) : Multiset (List Char))
      = (tokensOf text : Multiset (List Char)) := by
  have hlist : outTokens (indentOf text) (reflow text ml tw)
      = tokensOf text := by
    rw [outTokens, reflow_lines,
      joinSep_map_cat (indentOf text)
        (fun l => tokensOf (l.drop (indentOf text).length))
        (by
          show tokensOf ((indentOf text).drop (indentOf text).length) = []
          rw [List.drop_length]
          rfl)]
    have hout : ((paragraphsOf (procLines text)).map
          (fun g => wrapTokens (indentOf text) (indentWidthOf text tw) ml
            (groupTokens g))).map
          (fun L => catLists (L.map
            (fun l => tokensOf (l.drop (indentOf text).length))))
        = (paragraphsOf (procLines text)).map groupTokens := by
      rw [List.map_map]
      refine List.map_congr_left ?_
      intro g hg
      rw [Function.comp_apply]
      cases hgt : groupTokens g with
      | nil => exact absurd hgt (groupTokens_ne_nil hg)
      | cons w ws =>
        have htokens : ∀ v ∈ w :: ws, tokenLike v := by
          rw [← hgt]
          exact groupTokens_tokenLike
        rw [wrapTokens, List.map_map]
        have hdrop : ((fun l => tokensOf (l.drop (indentOf text).length))
              ∘ fun b => indentOf text ++ b) = tokensOf := by
          funext b
          rw [Function.comp_apply, List.drop_left]
        rw [hdrop, bodyWrap_tokens ws w _
          (fun v hv => htokens v (by simp [hv])),
          tokens_of_tokenLike (htokens w (by simp))]
        rfl
    rw [hout, tokens_procLines text hends hruns]
    have hmatch : ∀ l ∈ procLines text,
        matchesLine l = true ∨ tokensOf l = [] := by
      intro l hl
      obtain ⟨l0, hl0, rfl⟩ := List.mem_map.mp hl
      have hl0' : l0 ∈ splitOnNL text := (List.dropLast_sublist _).mem hl0
      rcases htrail l0 hl0' with h' | ⟨c, hc, hcw⟩
      · rw [h']
        exact Or.inr tokens_nil
      · exact Or.inl (matchesLine_intro hc hcw
          (stripLine_noNL (splitOnNL_noNL l0 hl0')))
    rw [← filter_cat_eq matchesLine tokensOf (procLines text) hmatch,
      ← runs_flat matchesLine (procLines text)]
    have : (paragraphsOf (procLines text)).map groupTokens
        = (paragraphsOf (procLines text)).map
            (fun g => catLists (g.map tokensOf)) :=
      List.map_congr_left (fun g _ => by
        rw [groupTokens, paraText, tokens_renderLines])
    rw [this, ← catLists_catLists tokensOf]
    rfl
  rw [hlist]

/-- C2 witness: on `"  a b.  Cd\n"` (all conditions hold) the output
token multiset equals the input token multiset. -/
theorem C2_word_preservation_witness :
    (lastChar ("  a b.  Cd\n".toList) = some '\n'
      ∧ (∀ l ∈ splitOnNL ("  a b.  Cd\n".toList),
          ∀ c ∈ l.takeWhile isIndentChar, isWSChar c = true)
      ∧ (∀ l ∈ splitOnNL ("  a b.  Cd\n".toList),
          stripLine l = []
          ∨ ∃ c, lastChar (stripLine l) = some c ∧ isWSChar c = false))
    ∧ (outTokens (indentOf ("  a b.  Cd\n".toList))
          (reflow ("  a b.  Cd\n".toList) 80 4) : Multiset (List Char))
        = (tokensOf ("  a b.  Cd\n".toList) : Multiset (List Char)) :=
  ⟨⟨by decide, by decide, by decide⟩,
    C2_word_preservation ("  a b.  Cd\n".toList) 80 4 (by decide)
      (by decide) (by decide)⟩

/-! ## C4: idempotence -/

theorem head?_append_left {α : Type} {b : List α} (x : List α)
    (hb : b ≠ []) : (b ++ x).head? = b.head? := by
  cases b with
  | nil => exact absurd rfl hb
  | cons c b' => rfl

theorem bodyWrap_headOK {iw ml : Nat} {ws : List (List Char)}
    (htok : ∀ v ∈ ws, tokenLike v)
    (hheads : ∀ v ∈ ws, ∀ c, v.head? = some c → isIndentChar c = false)
    {b : List Char} {off : Nat} (hbne : b ≠ [])
    (hbh : ∀ c, b.head? = some c → isIndentChar c = false) :
    ∀ l ∈ bodyWrap iw ml b off ws,
      l ≠ [] ∧ ∀ c, l.head? = some c → isIndentChar c = false := by
  refine bodyWrap_forall
    (fun l => l ≠ [] ∧ ∀ c, l.head? = some c → isIndentChar c = false)
    ?_ ws b off htok
    (fun v hv => ⟨(htok v hv).1, hheads v hv⟩) ⟨hbne, hbh⟩
  intro b' sp w' hb' _ _
  refine ⟨by simp [hb'.1], ?_⟩
  intro c hc
  rw [List.append_assoc, head?_append_left _ hb'.1] at hc
  exact hb'.2 c hc

theorem bodyWrap_noNL {iw ml : Nat} {ws : List (List Char)}
    (htok : ∀ v ∈ ws, tokenLike v) {b : List Char} {off : Nat}
    (hbnl : '\n' ∉ b) : ∀ l ∈ bodyWrap iw ml b off ws, '\n' ∉ l := by
  refine bodyWrap_forall (fun l => '\n' ∉ l) ?_ ws b off htok
    (fun v hv => tokenLike_not_nl (htok v hv)) hbnl
  intro b' sp w' hb' hsp hw' hmem
  rcases List.mem_append.mp hmem with hmem | hmem
  · rcases List.mem_append.mp hmem with hmem | hmem
    · exact hb' hmem
    · have := hsp _ hmem
      simp at this
  · exact tokenLike_not_nl hw' hmem

theorem bodyWrap_lastOK {iw ml : Nat} {ws : List (List Char)}
    (htok : ∀ v ∈ ws, tokenLike v) {b : List Char} {off : Nat}
    (hbl : ∃ c, lastChar b = some c ∧ isWSChar c = false) :
    ∀ l ∈ bodyWrap iw ml b off ws,
      ∃ c, lastChar l = some c ∧ isWSChar c = false := by
  refine bodyWrap_forall
    (fun l => ∃ c, lastChar l = some c ∧ isWSChar c = false)
    ?_ ws b off htok ?_ hbl
  · intro b' sp w' _ _ hw'
    obtain ⟨c, hc⟩ := lastChar_isSome hw'.1
    refine ⟨c, ?_, hw'.2 c (lastChar_mem hc)⟩
    rw [List.append_assoc, lastChar_append (by simp [hw'.1]),
      lastChar_append hw'.1, hc]
  · intro v hv
    obtain ⟨c, hc⟩ := lastChar_isSome (htok v hv).1
    exact ⟨c, hc, (htok v hv).2 c (lastChar_mem hc)⟩

theorem bodyWrap_matches {iw ml : Nat} {w : List Char}
    {ws : List (List Char)} (htok : ∀ v ∈ w :: ws, tokenLike v) :
    ∀ b ∈ bodyWrap iw ml w (iw + w.length) ws, matchesLine b = true := by
  intro b hb
  have hlast := bodyWrap_lastOK (fun v hv => htok v (by simp [hv]))
    (by
      obtain ⟨c, hc⟩ := lastChar_isSome (htok w (by simp)).1
      exact ⟨c, hc, (htok w (by simp)).2 c (lastChar_mem hc)⟩) b hb
  have hnl := bodyWrap_noNL (fun v hv => htok v (by simp [hv]))
    (tokenLike_not_nl (htok w (by simp))) b hb
  obtain ⟨c, hc, hcw⟩ := hlast
  exact matchesLine_intro hc hcw hnl

theorem stripLine_ind_append {ind b : List Char}
    (hind : ∀ c ∈ ind, isIndentChar c = true)
    (hb : ∀ c, b.head? = some c → isIndentChar c = false) :
    stripLine (ind ++ b) = b := by
  rw [stripLine, dropWhile_append_all b hind]
  cases b with
  | nil => rfl
  | cons c b' =>
    rw [List.dropWhile_cons, hb c rfl]
    simp

theorem stripLine_all_indent {l : List Char}
    (h : ∀ c ∈ l, isIndentChar c = true) : stripLine l = [] :=
  dropWhile_of_all h

theorem wrapTokens_strip {ind : List Char} {iw ml : Nat} {w : List Char}
    {ws : List (List Char)} (hind : ∀ c ∈ ind, isIndentChar c = true)
    (htok : ∀ v ∈ w :: ws, tokenLike v)
    (hheads : ∀ v ∈ w :: ws, ∀ c, v.head? = some c → isIndentChar c = false) :
    (wrapTokens ind iw ml (w :: ws)).map stripLine
      = bodyWrap iw ml w (iw + w.length) ws := by
  rw [wrapTokens, List.map_map]
  have hstep : ∀ b ∈ bodyWrap iw ml w (iw + w.length) ws,
      (stripLine ∘ fun b => ind ++ b) b = b := by
    intro b hb
    have hOK := bodyWrap_headOK (fun v hv => htok v (by simp [hv]))
      (fun v hv => hheads v (by simp [hv])) (htok w (by simp)).1
      (hheads w (by simp)) b hb
    exact stripLine_ind_append hind hOK.2
  rw [List.map_congr_left hstep]
  simp

theorem map_joinSep {α β : Type} (f : α → β) (sep : List α) :
    ∀ (Ls : List (List α)),
      (joinSep sep Ls).map f = joinSep (sep.map f) (Ls.map (List.map f))
  | [] => rfl
  | [X] => by rw [joinSep_single, List.map_cons, List.map_nil, joinSep_single]
  | X :: Y :: t => by
    rw [joinSep_cons₂, List.map_cons, List.map_cons (List.map f),
      joinSep_cons₂, List.map_append, List.map_append,
      map_joinSep f sep (Y :: t), List.map_cons]

theorem matchesLine_nil : matchesLine ([] : List Char) = false := rfl

theorem paragraphs_blank_join :
    ∀ (Bss : List (List (List Char))),
      (∀ B ∈ Bss, B ≠ [] ∧ ∀ b ∈ B, matchesLine b = true) →
      paragraphsOf (joinSep [[]] Bss) = Bss
  | [], _ => rfl
  | [B], h => by
    rw [joinSep_single, paragraphsOf,
      runs_all matchesLine (h B (by simp)).2 (h B (by simp)).1]
  | B :: B' :: t, h => by
    rw [joinSep_cons₂]
    have e1 : B ++ [([] : List Char)] ++ joinSep [[]] (B' :: t)
        = B ++ ([] : List Char) :: joinSep [[]] (B' :: t) := by simp
    rw [e1, paragraphsOf, runs_break matchesLine matchesLine_nil _ B,
      runs_all matchesLine (h B (by simp)).2 (h B (by simp)).1]
    have := paragraphs_blank_join (B' :: t)
      (fun X hX => h X (by simp [hX]))
    rw [paragraphsOf] at this
    rw [this]
    rfl

theorem joinSep_cons_decomp {γ : Type} (sep X : List γ)
    (rest : List (List γ)) : ∃ t, joinSep sep (X :: rest) = X ++ t := by
  cases rest with
  | nil => exact ⟨[], by simp [joinSep_single]⟩
  | cons Y u =>
    exact ⟨sep ++ joinSep sep (Y :: u), by
      rw [joinSep_cons₂, List.append_assoc]⟩

theorem regroup_tokens {ind : List Char} (iw ml : Nat)
    {g : List (List Char)} (hind : ∀ c ∈ ind, isIndentChar c = true)
    (hne : groupTokens g ≠ [])
    (hheads : ∀ w ∈ groupTokens g, ∀ c, w.head? = some c →
      isIndentChar c = false) :
    (wrapTokens ind iw ml (groupTokens g)).map stripLine ≠ []
    ∧ (∀ b ∈ (wrapTokens ind iw ml (groupTokens g)).map stripLine,
        matchesLine b = true)
    ∧ groupTokens ((wrapTokens ind iw ml (groupTokens g)).map stripLine)
        = groupTokens g := by
  cases hgt : groupTokens g with
  | nil => exact absurd hgt hne
  | cons w ws =>
    have htok : ∀ v ∈ w :: ws, tokenLike v := by
      rw [← hgt]
      exact groupTokens_tokenLike
    have hheads' : ∀ v ∈ w :: ws, ∀ c, v.head? = some c →
        isIndentChar c = false := by
      rw [← hgt]
      exact hheads
    rw [wrapTokens_strip hind htok hheads']
    refine ⟨bodyWrap_ne_nil iw ml ws w _, bodyWrap_matches htok, ?_⟩
    rw [groupTokens, paraText, tokens_renderLines,
      bodyWrap_tokens ws w _ (fun v hv => htok v (by simp [hv])),
      tokens_of_tokenLike (htok w (by simp))]
    rfl

theorem ind_noNL_of_all {ind : List Char}
    (hind : ∀ c ∈ ind, isIndentChar c = true) : '\n' ∉ ind := by
  intro hm
  have h2 := isIndentChar_ne_nl (hind _ hm)
  simp at h2

theorem assemble_fixed {ind : List Char} {tw iw ml : Nat}
    {pls : List (List Char)} {G : List (List Char)}
    {Gs : List (List (List Char))}
    (hind : ∀ c ∈ ind, isIndentChar c = true)
    (hiw : iw = ind.length + ind.count '\t' * (tw - 1))
    (hgs : paragraphsOf pls = G :: Gs)
    (hne : ∀ g ∈ G :: Gs, groupTokens g ≠ [])
    (hheads : ∀ g ∈ G :: Gs, ∀ w ∈ groupTokens g, ∀ c,
      w.head? = some c → isIndentChar c = false) :
    reflow (assembleLines ind iw ml pls) ml tw
      = assembleLines ind iw ml pls := by
  have h1 : assembleLines ind iw ml pls
      = renderLines (joinSep [ind]
          ((G :: Gs).map (fun g => wrapTokens ind iw ml (groupTokens g)))) := by
    rw [assembleLines, hgs, renderLines_joinSep, List.map_map]
    rfl
  rw [h1, reflow_eq_assemble]
  have hALnl : ∀ l ∈ joinSep [ind]
      ((G :: Gs).map (fun g => wrapTokens ind iw ml (groupTokens g))),
      '\n' ∉ l := by
    intro l hl
    rcases mem_joinSep_elim hl with rfl | ⟨L, hL, hx⟩
    · exact ind_noNL_of_all hind
    · obtain ⟨g, hg, rfl⟩ := List.mem_map.mp hL
      exact wrapTokens_noNL (ind_noNL_of_all hind) groupTokens_tokenLike l hx
  have hproc : procLines (renderLines (joinSep [ind]
        ((G :: Gs).map (fun g => wrapTokens ind iw ml (groupTokens g)))))
      = joinSep [[]] ((G :: Gs).map
          (fun g => (wrapTokens ind iw ml (groupTokens g)).map stripLine)) := by
    rw [procLines, splitOnNL_renderLines hALnl, List.dropLast_concat,
      map_joinSep stripLine [ind], List.map_cons, List.map_nil,
      stripLine_all_indent hind, List.map_map]
    rfl
  have hpara : paragraphsOf (procLines (renderLines (joinSep [ind]
        ((G :: Gs).map (fun g => wrapTokens ind iw ml (groupTokens g))))))
      = (G :: Gs).map
          (fun g => (wrapTokens ind iw ml (groupTokens g)).map stripLine) := by
    rw [hproc]
    refine paragraphs_blank_join _ ?_
    intro B hB
    obtain ⟨g, hg, rfl⟩ := List.mem_map.mp hB
    obtain ⟨r1, r2, -⟩ := regroup_tokens iw ml hind (hne g hg) (hheads g hg)
    exact ⟨r1, r2⟩
  have hindO : indentOf (renderLines (joinSep [ind]
        ((G :: Gs).map (fun g => wrapTokens ind iw ml (groupTokens g)))))
      = ind := by
    cases hgt : groupTokens G with
    | nil => exact absurd hgt (hne G (by simp))
    | cons w ws =>
      have htok : ∀ v ∈ w :: ws, tokenLike v := by
        rw [← hgt]
        exact groupTokens_tokenLike
      obtain ⟨b₁, B', hB⟩ : ∃ b₁ B',
          bodyWrap iw ml w (iw + w.length) ws = b₁ :: B' := by
        cases hc : bodyWrap iw ml w (iw + w.length) ws with
        | nil => exact absurd hc (bodyWrap_ne_nil iw ml ws w _)
        | cons b₁ B' => exact ⟨b₁, B', rfl⟩
      have hheadsG : ∀ v ∈ w :: ws, ∀ c, v.head? = some c →
          isIndentChar c = false := by
        rw [← hgt]
        exact hheads G (by simp)
      have htokG : ∀ v ∈ ws, tokenLike v := fun v hv => htok v (by simp [hv])
      have hheadsWS : ∀ v ∈ ws, ∀ c, v.head? = some c →
          isIndentChar c = false := fun v hv => hheadsG v (by simp [hv])
      have hb₁ : b₁ ≠ [] ∧ ∀ c, b₁.head? = some c → isIndentChar c = false :=
        bodyWrap_headOK htokG hheadsWS (htok w (by simp)).1
          (hheadsG w (by simp)) b₁ (by rw [hB]; simp)
      obtain ⟨t, ht⟩ := joinSep_cons_decomp [ind]
        (wrapTokens ind iw ml (groupTokens G))
        ((Gs).map (fun g => wrapTokens ind iw ml (groupTokens g)))
      rw [List.map_cons, ht, hgt, wrapTokens, hB, List.map_cons,
        List.cons_append, renderLines, indentOf]
      cases hb₁' : b₁ with
      | nil => exact absurd hb₁' hb₁.1
      | cons c b₁'' =>
        have hc : isIndentChar c = false := by
          refine hb₁.2 c ?_
          rw [hb₁']
          rfl
        have e1 : (ind ++ c :: b₁'') ++ '\n'
              :: renderLines ((B'.map (fun b => ind ++ b)) ++ t) ++ ['\n']
            = ind ++ c :: (b₁'' ++ '\n'
              :: (renderLines ((B'.map (fun b => ind ++ b)) ++ t) ++ ['\n'])) := by
          simp
        rw [e1, takeWhile_append_all _ hind, List.takeWhile_cons, hc]
        simp
  rw [hindO, indentWidthOf, hindO, ← hiw, assembleLines, hpara,
    List.map_map]
  have hcong : ∀ g ∈ G :: Gs,
      ((fun g => renderLines (wrapTokens ind iw ml (groupTokens g)))
        ∘ (fun g => (wrapTokens ind iw ml (groupTokens g)).map stripLine)) g
      = renderLines (wrapTokens ind iw ml (groupTokens g)) := by
    intro g hg
    rw [Function.comp_apply]
    obtain ⟨-, -, r3⟩ := regroup_tokens iw ml hind (hne g hg) (hheads g hg)
    rw [r3]
  rw [List.map_congr_left hcong, renderLines_joinSep, List.map_map]
  rfl

/-- C4 counterexample: the input `"aa\nx -y\n"` is within width bounds for
`max_line_length = 4` (its lines have widths 2 and 4), yet `reflow` is not
idempotent on it: the first pass moves the token `"-y"` to the start of a
line, where the second pass strips its `'-'` as indentation. -/
theorem C4_counterexample :
    (∀ l ∈ linesOf ("aa\nx -y\n".toList), colWidth 1 l ≤ 4)
    ∧ reflow ("aa\nx -y\n".toList) 4 1 = "aa x\n-y\n".toList
    ∧ reflow (reflow ("aa\nx -y\n".toList) 4 1) 4 1 = "aa x\ny\n".toList
    ∧ reflow (reflow ("aa\nx -y\n".toList) 4 1) 4 1
        ≠ reflow ("aa\nx -y\n".toList) 4 1 := by
  refine ⟨by decide, by decide, by decide, by decide⟩

/-- C4 (amended): `reflow (reflow t) = reflow t` for every valid text `t`
in which no token of the stripped paragraph text begins with an
indent-set character (the width-bound condition of the original claim is
neither necessary nor sufficient, as the counterexample shows). -/
theorem C4_idempotence (text : List Char) (ml tw : Nat)
    (hheads : ∀ g ∈ paragraphsOf (procLines text), ∀ w ∈ groupTokens g,
      ∀ c, w.head? = some c → isIndentChar c = false) :
    reflow (reflow text ml tw) ml tw = reflow text ml tw := by
  rw [reflow_eq_assemble text ml tw]
  cases hgs : paragraphsOf (procLines text) with
  | nil =>
    have h0 : assembleLines (indentOf text) (indentWidthOf text tw) ml
        (procLines text) = [] := by
      rw [assembleLines, hgs]
      rfl
    rw [h0]
    rfl
  | cons G Gs =>
    refine assemble_fixed (indentOf_all text) rfl hgs ?_ ?_
    · intro g hg
      rw [← hgs] at hg
      exact groupTokens_ne_nil hg
    · intro g hg
      rw [← hgs] at hg
      exact hheads g hg

/-- C4 witness: `reflow` is idempotent on `"a b\n"` (no token starts with
an indent-set character). -/
theorem C4_idempotence_witness :
    (∀ g ∈ paragraphsOf (procLines ("a b\n".toList)),
      ∀ w ∈ groupTokens g, ∀ c, w.head? = some c → isIndentChar c = false)
    ∧ reflow (reflow ("a b\n".toList) 80 1) 80 1
        = reflow ("a b\n".toList) 80 1 := by
  have hhyp : ∀ g ∈ paragraphsOf (procLines ("a b\n".toList)),
      ∀ w ∈ groupTokens g, ∀ c, w.head? = some c →
        isIndentChar c = false := by
    have hpg : paragraphsOf (procLines ("a b\n".toList))
        = [[['a', ' ', 'b']]] := by decide
    intro g hg
    rw [hpg] at hg
    have hg' := List.mem_singleton.mp hg
    subst hg'
    have hgt : groupTokens [['a', ' ', 'b']] = [['a'], ['b']] := by decide
    intro w hw
    rw [hgt] at hw
    have hw' : w = ['a'] ∨ w = ['b'] := by simpa using hw
    rcases hw' with rfl | rfl <;> intro c hc <;>
      · rw [List.head?_cons, Option.some_inj] at hc
        subst hc
        decide
  exact ⟨hhyp, C4_idempotence ("a b\n".toList) 80 1 hhyp⟩

end Rewrap
